import Mathlib

/-!
Shallow embedding of `src/HighPrecision/BigInteger.hh` (arbitrary precision
integer class over 32-bit limbs, least significant limb first, with an NTT
based multiplication) together with theorems settling the specification
claims about it.

Machine integers are modeled as `ℕ` with explicit `% 2 ^ 32` where the C++
code relies on `uint32_t` wraparound (the `operator++` / `operator--` ripple
loops).  All `uint64_t` intermediate quantities in the source are bounded by
`2 ^ 64` on the inputs the code reaches (carries are at most one, NTT
products are below `bigMod ^ 2 < 2 ^ 64`), so they are modeled as exact
natural numbers.
-/

/-- BigInteger::base = 1 << 32. -/
def bigBase : ℕ := 2 ^ 32

/-- BigInteger::mod = (1u << 30) * 3 + 1. -/
def bigMod : ℕ := 2 ^ 30 * 3 + 1

/-- BigInteger::root = 5. -/
def bigRoot : ℕ := 5

/-- The BigInteger data model: `value` is the limb vector (least significant
limb first), `negative` the sign flag. -/
structure BigInteger where
  value : List ℕ
  negative : Bool
deriving DecidableEq, Repr

/-- Carry ripple of `operator++` on the magnitude:
`while (i != end && !++*i++); if (*(i-1) == 0) push_back(1);`.
A limb that wraps to zero propagates the carry; running off the end with the
carry still pending appends a new most significant limb `1`. -/
def incLimbs : List ℕ → List ℕ
  | [] => [1]
  | x :: xs =>
      if (x + 1) % bigBase = 0 then 0 :: incLimbs xs
      else ((x + 1) % bigBase) :: xs

/-- Borrow ripple of `operator--` on the magnitude:
`while (i != end && !~--*i++);`.
A limb that wraps to `0xFFFFFFFF` propagates the borrow; a borrow that runs
off the end of the vector is silently dropped by the source. -/
def decLimbs : List ℕ → List ℕ
  | [] => []
  | x :: xs =>
      if x = 0 then (bigBase - 1) :: decLimbs xs
      else (x - 1) :: xs

/-- Index walk of `trimLeadingZeros_`:
`size_t len = size(); while (!value[len] && len) --len;`.
The walk starts by reading `value[len]` with `len = size()`, which is out of
bounds; that read is modeled as yielding `0` (`List.getD _ _ 0`), the value
the remaining code relies on. -/
def trimLen (v : List ℕ) : ℕ → ℕ
  | 0 => 0
  | len + 1 => if v.getD (len + 1) 0 = 0 then trimLen v len else len + 1

/-- The indices read from the limb vector by the `trimLeadingZeros_` loop,
in read order, when the walk starts at the given index. -/
def trimLenReads (v : List ℕ) : ℕ → List ℕ
  | 0 => [0]
  | len + 1 =>
      if v.getD (len + 1) 0 = 0 then (len + 1) :: trimLenReads v len
      else [len + 1]

/-- All limb indices read by `trimLeadingZeros_` (the walk starts at
`len = size()`). -/
def trimReads (v : List ℕ) : List ℕ := trimLenReads v v.length

/-- BigInteger::trimLeadingZeros_ acting on the limb vector:
after the index walk, `resize(len + 1)`. -/
def trimLeadingZeros (v : List ℕ) : List ℕ :=
  let len := trimLen v v.length
  v.take (len + 1) ++ List.replicate (len + 1 - v.length) 0

/-- BigInteger::eliminateNegativeZero_ : clear the sign when the magnitude is
the single limb 0. -/
def eliminateNegativeZero (a : BigInteger) : BigInteger :=
  if a.value.length = 1 ∧ a.value.headD 0 = 0 then { a with negative := false }
  else a

/-- trimLeadingZeros_ on a BigInteger (the source member function also calls
eliminateNegativeZero_ at the end). -/
def trimBig (a : BigInteger) : BigInteger :=
  eliminateNegativeZero { a with value := trimLeadingZeros a.value }

/-- operator== : equal sign, equal length, then limb-wise equality. -/
def opEq (l r : BigInteger) : Bool :=
  if l.negative ≠ r.negative then false
  else if l.value.length ≠ r.value.length then false
  else l.value == r.value

/-- operator!= . -/
def opNe (l r : BigInteger) : Bool := !opEq l r

/-- std::equal(first1, last1, first2, std::less) over two equal-length
ranges: the predicate must hold at EVERY aligned pair. -/
def allPairsLess (l r : List ℕ) : Bool :=
  (List.zip l r).all fun p => p.1 < p.2

/-- operator< : sign, then length, then
`lhs.negative ^ std::equal(lhs.rbegin, lhs.rend, rhs.rbegin, std::less)`. -/
def opLt (l r : BigInteger) : Bool :=
  if l.negative ≠ r.negative then l.negative
  else if l.value.length ≠ r.value.length then l.value.length < r.value.length
  else xor l.negative (allPairsLess l.value.reverse r.value.reverse)

/-- operator> : `rhs < lhs`. -/
def opGt (l r : BigInteger) : Bool := opLt r l

/-- operator>= : `!(lhs < rhs)`. -/
def opGe (l r : BigInteger) : Bool := !opLt l r

/-- operator<= : `!(rhs < lhs)`. -/
def opLe (l r : BigInteger) : Bool := !opLt r l

/-- operator++ (prefix): carry ripple on a non-negative value, borrow ripple
plus trim on a negative one. -/
def opInc (a : BigInteger) : BigInteger :=
  if !a.negative then { a with value := incLimbs a.value }
  else trimBig { a with value := decLimbs a.value }

/-- operator-- (prefix): borrow ripple plus trim on a non-negative value,
carry ripple on a negative one. -/
def opDec (a : BigInteger) : BigInteger :=
  if !a.negative then trimBig { a with value := decLimbs a.value }
  else { a with value := incLimbs a.value }

/-- operator~ : copy, pre-increment, flip the sign flag. -/
def opNot (a : BigInteger) : BigInteger :=
  let r := opInc a
  { r with negative := !r.negative }

/-- Second loop of the same-sign branch of operator+= :
`while (value && i != end)` carry propagation, then `if (value) push_back`. -/
def propagateCarry : List ℕ → ℕ → List ℕ
  | [], carry => if carry ≠ 0 then [carry] else []
  | l :: ls, carry =>
      if carry ≠ 0 then
        ((carry + l) % bigBase) :: propagateCarry ls ((carry + l) / bigBase)
      else l :: ls

/-- First loop of the same-sign branch of operator+= : limb-wise addition
with carry over the length of the right operand (the left list has already
been resized to at least that length). -/
def addCarryLoop : List ℕ → List ℕ → ℕ → List ℕ
  | ls, [], carry => propagateCarry ls carry
  | l :: ls, r :: rs, carry =>
      ((carry + l + r) % bigBase) :: addCarryLoop ls rs ((carry + l + r) / bigBase)
  | [], _ :: _, _ => []

/-- Same-sign branch of operator+= : resize the left vector up to the length
of the right one, then add with carry. -/
def addSame (l r : BigInteger) : BigInteger :=
  let padded := l.value ++ List.replicate (r.value.length - l.value.length) 0
  { l with value := addCarryLoop padded r.value 0 }

/-- Borrow propagation tail of the `abs(lhs) > abs(rhs)` branch of
operator-= ; a borrow running off the end is dropped. -/
def propagateBorrow : List ℕ → ℕ → List ℕ
  | [], _ => []
  | l :: ls, borrow =>
      if borrow ≠ 0 then
        if l < borrow then (l + bigBase - borrow) :: propagateBorrow ls 1
        else (l - borrow) :: ls
      else l :: ls

/-- Subtraction loop of the `abs(lhs) > abs(rhs)` branch of operator-= :
`value = value + *i - *j`, store `value + base` on borrow. -/
def subBorrowLoop : List ℕ → List ℕ → ℕ → List ℕ
  | ls, [], borrow => propagateBorrow ls borrow
  | l :: ls, r :: rs, borrow =>
      if l < r + borrow then (l + bigBase - r - borrow) :: subBorrowLoop ls rs 1
      else (l - r - borrow) :: subBorrowLoop ls rs 0
  | [], _ :: _, _ => []

/-- Subtraction loop of the swapped branch of operator-=
(`value = value + *j - *i`, over the right operand's length only; leftover
left limbs are kept, a final borrow is dropped). -/
def subSwappedLoop : List ℕ → List ℕ → ℕ → List ℕ
  | ls, [], _ => ls
  | l :: ls, r :: rs, borrow =>
      if r < l + borrow then (r + bigBase - l - borrow) :: subSwappedLoop ls rs 1
      else (r - l - borrow) :: subSwappedLoop ls rs 0
  | [], _ :: _, _ => []

/-- Same-sign branch of operator-= : resize, compare magnitudes with
`(lhs > rhs) ^ lhs.negative` (this uses operator>), subtract the smaller
from the larger, trim. -/
def subSame (l r : BigInteger) : BigInteger :=
  let padded := l.value ++ List.replicate (r.value.length - l.value.length) 0
  let lp : BigInteger := { l with value := padded }
  if xor (opLt r lp) lp.negative then
    trimBig { lp with value := subBorrowLoop padded r.value 0 }
  else
    trimBig { lp with negative := !lp.negative, value := subSwappedLoop padded r.value 0 }

/-- operator+= : same-sign addition, otherwise flip the sign, delegate to the
same-sign branch of operator-=, flip back, eliminate negative zero. -/
def opAddAssign (l r : BigInteger) : BigInteger :=
  if l.negative = r.negative then addSame l r
  else
    let l1 : BigInteger := { l with negative := !l.negative }
    let s := subSame l1 r
    eliminateNegativeZero { s with negative := !s.negative }

/-- operator-= : same-sign subtraction, otherwise flip the sign, delegate to
the same-sign branch of operator+=, flip back. -/
def opSubAssign (l r : BigInteger) : BigInteger :=
  if l.negative = r.negative then subSame l r
  else
    let l1 : BigInteger := { l with negative := !l.negative }
    let s := addSame l1 r
    { s with negative := !s.negative }

/-- Binary operator+ (copy then compound assign). -/
def opAdd (l r : BigInteger) : BigInteger := opAddAssign l r

/-- Binary operator- (copy then compound assign). -/
def opSub (l r : BigInteger) : BigInteger := opSubAssign l r

/-- Loop body of BigInteger::modpow_ (a do-while over the binary expansion of
the exponent): `if (expo & 1) retn = retn * base % mod;
if (expo ^ 1) base = base * base % mod;` repeated `while (expo >>= 1)`.
The loop runs once per bit of the exponent, so 64 iterations of fuel cover
every `uint64_t` exponent and the fuel is never exhausted on them. -/
def modpowLoop : ℕ → ℕ → ℕ → ℕ → ℕ
  | 0, _, _, retn => retn
  | fuel + 1, b, e, retn =>
      let retn1 := if e % 2 = 1 then retn * b % bigMod else retn
      let b1 := if e ≠ 1 then b * b % bigMod else b
      if e / 2 = 0 then retn1 else modpowLoop fuel b1 (e / 2) retn1

/-- BigInteger::modpow_ . -/
def modpow (b e : ℕ) : ℕ := modpowLoop 64 b e 1

/-- Loop of BigInteger::modinv_ (extended Euclid on signed 64-bit values with
C++ truncating division).  The `y` coefficients of the source are carried
along but never used for the return value.  Division by zero is undefined
behavior in the source and unreachable on its call sites; the model returns
the current `x` there.  The remainder chain shrinks at least as fast as a
Fibonacci sequence, so 128 iterations of fuel cover every `int64_t` input
and the fuel is never exhausted on them. -/
def modinvLoop : ℕ → ℤ → ℤ → ℤ → ℤ → ℤ → ℤ → ℤ
  | 0, _, _, x, _, _, _ => x
  | fuel + 1, m, n, x, xp, y, yp =>
      if n = 0 then x
      else
        let r := Int.tmod m n
        let q := Int.tdiv m n
        if r = 0 then x
        else modinvLoop fuel n r (xp - q * x) x (yp - q * y) y

/-- BigInteger::modinv_ : extended Euclid, returning `x + mod` as a signed
value (the source then converts it to `uint64_t`). -/
def modinv (m n : ℤ) : ℤ := modinvLoop 128 m n 0 1 1 0 + n

/-- The `uint64_t` value actually returned by BigInteger::modinv_ (conversion
of the signed result to `uint64_t` is reduction modulo `2 ^ 64`). -/
def modinvU (m n : ℤ) : ℕ := (modinv m n % (2 ^ 64 : ℤ)).toNat

/-- Unit root powers: `w[i] = i ? w[i - 1] * g % mod : 1`. -/
def rootPow (g : ℕ) : ℕ → ℕ
  | 0 => 1
  | i + 1 => rootPow g i * g % bigMod

/-- The j-update of the bit-reversal loop:
`for (k = n; j < k; j ^= k) k >>= 1;` (condition, then body `k >>= 1`, then
step `j ^= k`).  `k` halves on every iteration, so 64 iterations of fuel
cover every `size_t` starting value and the fuel is never exhausted. -/
def revStepLoop : ℕ → ℕ → ℕ → ℕ
  | 0, j, _ => j
  | fuel + 1, j, k => if j < k then revStepLoop fuel (j ^^^ (k / 2)) (k / 2) else j

/-- The j-update of the bit-reversal loop, started with `k = n`. -/
def revStep (j k : ℕ) : ℕ := revStepLoop 64 j k

/-- The bit-reversal sweep of BigInteger::NTT_ :
`for (i = 0, j = 0; i != n; ++i) { if (i > j) swap(value[i], value[j]); ... }`. -/
def bitrevSweep (n : ℕ) (v : List ℕ) : List ℕ :=
  ((List.range n).foldl
    (fun (s : List ℕ × ℕ) i =>
      let v := s.1
      let j := s.2
      let v1 := if j < i then (v.set i (v.getD j 0)).set j (v.getD i 0) else v
      (v1, revStep j n))
    (v, 0)).1

/-- One butterfly of BigInteger::NTT_ : the element at `i + j + k` is updated
first from the OLD pair, then the element at `j + k`. -/
def butterflyPair (w : List ℕ) (bigI i j k : ℕ) (v : List ℕ) : List ℕ :=
  let a := v.getD (j + k) 0
  let z := v.getD (i + j + k) 0 * w.getD (bigI * k) 0 % bigMod
  let v1 := v.set (i + j + k) (if a < z then a + bigMod - z else a - z)
  v1.set (j + k) (if a + z < bigMod then a + z else a + z - bigMod)

/-- The two inner loops of a butterfly stage:
`for (j = 0; j != n; j += i << 1) for (k = 0; k != i; ++k)`.
In every call `2 * i` divides `n` (both are powers of two), so the `j` loop
visits exactly the `n / (2 * i)` block starts `b * (2 * i)`. -/
def butterflyStage (w : List ℕ) (n bigI i : ℕ) (v : List ℕ) : List ℕ :=
  (List.range (n / (2 * i))).foldl
    (fun v b => (List.range i).foldl
      (fun v k => butterflyPair w bigI i (b * (2 * i)) k v) v) v

/-- The outer stage loop of BigInteger::NTT_ :
`for (i = 1, I = n >> 1; I; i <<= 1, I >>= 1)`.
With `n = 2 ^ logN` this runs `logN` stages with `i = 2 ^ s` and
`I = n >>> (s + 1)`. -/
def butterflyStages (w : List ℕ) (n logN : ℕ) (v : List ℕ) : List ℕ :=
  (List.range logN).foldl
    (fun v s => butterflyStage w n (n >>> (s + 1)) (2 ^ s) v)
    v

/-- BigInteger::NTT_ on the limb vector: build the unit-root table from
`g = modpow_(root, mod >> logN)`; for the inverse transform reverse
`w + 1 .. w + n` and pre-scale by `modinv_(n, mod)`; then the bit-reversal
sweep and the iterative butterflies. -/
def NTT (logN : ℕ) (inverse : Bool) (v : List ℕ) : List ℕ :=
  let n := v.length
  let g := modpow bigRoot (bigMod >>> logN)
  let w0 := (List.range n).map (rootPow g)
  let w := if inverse then
      match w0 with
      | [] => []
      | h :: t => h :: t.reverse
    else w0
  let v1 := if inverse then
      let inv := modinvU (n : ℤ) (bigMod : ℤ)
      v.map (fun x => x * inv % bigMod)
    else v
  butterflyStages w (2 ^ logN) logN (bitrevSweep n v1)

/-- The transform length search of operator*= :
`while (1 << logN < size << 1) ++logN;`.  The shift exceeds `2 * size`
after at most 64 doublings for every `size_t` operand size, so 64
iterations of fuel are never exhausted there. -/
def logNLoop : ℕ → ℕ → ℕ → ℕ
  | 0, _, logN => logN
  | fuel + 1, size, logN =>
      if 2 ^ logN < 2 * size then logNLoop fuel size (logN + 1) else logN

/-- operator*= : pick the transform length, zero-pad both operands, forward
transform both, multiply pointwise mod `mod`, inverse transform, trim.  The
sign flags are never combined: the left operand keeps its own flag (subject
only to eliminateNegativeZero_ inside the final trim). -/
def opMulAssign (lhs rhs : BigInteger) : BigInteger :=
  let size := max lhs.value.length rhs.value.length
  let logN := logNLoop 64 size 0
  let n := 2 ^ logN
  let lv := lhs.value ++ List.replicate (n - lhs.value.length) 0
  let rv := rhs.value ++ List.replicate (n - rhs.value.length) 0
  let lt1 := NTT logN false lv
  let rt1 := NTT logN false rv
  let pw := List.zipWith (fun a b => a * b % bigMod) lt1 rt1
  trimBig { lhs with value := NTT logN true pw }

/-- Binary operator* (copy then compound assign). -/
def opMul (l r : BigInteger) : BigInteger := opMulAssign l r

/-- BigInteger(int64_t) : `negative = value < 0`, push `abs(value % base)`,
and if `value /= base` is nonzero push `abs(value)` (C++ division truncates
toward zero). -/
def fromInt (v : ℤ) : BigInteger :=
  let first := (Int.tmod v (bigBase : ℤ)).natAbs
  let rest := Int.tdiv v (bigBase : ℤ)
  { value := if rest ≠ 0 then [first, rest.natAbs] else [first],
    negative := decide (v < 0) }

/-- Lexicographic comparison of two equal-length limb sequences given most
significant limb first (the order the specification describes for magnitude
comparison).  This definition follows the specification's words, to be
compared against the source's `opLt`. -/
def lexLtMSB : List ℕ → List ℕ → Bool
  | [], [] => false
  | a :: as, b :: bs =>
      if a < b then true else if b < a then false else lexLtMSB as bs
  | _, _ => false

/-- Magnitude comparison as the specification describes it: shorter
normalized sequences are smaller, equal-length sequences compare
lexicographically from the most significant limb down.  This definition
follows the specification's words, to be compared against the source's
`opLt`. -/
def specMagLexLt (l r : List ℕ) : Bool :=
  if l.length ≠ r.length then l.length < r.length
  else lexLtMSB l.reverse r.reverse

/-- Model of std::istream : the full character sequence, a read position and
the failure flag. -/
structure IStream where
  input : List Char
  pos : ℕ
  failed : Bool
deriving DecidableEq, Repr

/-- Whitespace for the default C++ locale (skipped by formatted `>>`). -/
def wsChar (c : Char) : Bool :=
  c = ' ' || c = '\t' || c = '\n' || c = '\x0b' || c = '\x0c' || c = '\r'

/-- Formatted single-character extraction `is >> cursor` : skip the
whitespace run, then take one character; with no character left the stream
fails. -/
def extractChar (s : IStream) : Option Char × IStream :=
  let ws := ((s.input.drop s.pos).takeWhile wsChar).length
  let p := s.pos + ws
  match (s.input.drop p).head? with
  | some c => (some c, { s with pos := p + 1 })
  | none => (none, { s with pos := p, failed := true })

/-- The 9-digit chunking loop of getDec_ : read decimal digit values most
significant first, accumulate into `value`, push a chunk every
`logBase = 9` digits.  Returns the pushed chunks together with the pending
`value` and `logLen`. -/
def chunkLoop : List ℕ → List ℕ → ℕ → ℕ → List ℕ × ℕ × ℕ
  | [], dec, value, logLen => (dec, value, logLen)
  | d :: ds, dec, value, logLen =>
      if logLen + 1 = 9 then chunkLoop ds (dec ++ [value * 10 + d]) 0 0
      else chunkLoop ds dec (value * 10 + d) (logLen + 1)

/-- The reverse-iterator alignment pass of getDec_ :
`*prev++ += *next % shift * len; *next++ /= shift;` walking from the last
chunk toward the first.  The first argument is the chunk `prev` points at,
the list the remaining chunks in walk order (the caller passes the chunk
vector reversed and reverses the result back). -/
def adjustLoop (shift len : ℕ) : ℕ → List ℕ → List ℕ
  | prev, [] => [prev]
  | prev, next :: rest =>
      (prev + next % shift * len) :: adjustLoop shift len (next / shift) rest

/-- The alignment pass on the whole reversed chunk vector. -/
def adjustRun (shift len : ℕ) : List ℕ → List ℕ
  | [] => []
  | prev :: rest => adjustLoop shift len prev rest

/-- One pass of the base conversion loop of getDec_ : long division of the
base-10^9 chunk sequence (most significant first) by `base = 2^32`, with
incoming carry `value`; returns the quotient chunks and the remainder. -/
def divBasePass (value : ℕ) : List ℕ → List ℕ × ℕ
  | [] => ([], value)
  | c :: cs =>
      let v := value * 1000000000 + c
      let (qs, r) := divBasePass (v % bigBase) cs
      (v / bigBase :: qs, r)

/-- The outer conversion loop of getDec_ :
`while (head + 1 != decimal.end()) { value = *head++; ...; push_back(value); }
if (*head) push_back(*head);`.
Each pass consumes the leading chunk as the initial carry and shortens the
chunk list by one, so fuel equal to the initial chunk count is never
exhausted. -/
def convertLoop : ℕ → List ℕ → List ℕ → List ℕ
  | _, [], limbs => limbs
  | _, [last], limbs => if last ≠ 0 then limbs ++ [last] else limbs
  | 0, _ :: _ :: _, limbs => limbs
  | fuel + 1, c :: cs, limbs =>
      let (qs, r) := divBasePass c cs
      convertLoop fuel qs (limbs ++ [r])

/-- BigInteger::getDec_ : fail (value reset to canonical zero, stream marked
failed) when the next character is no ASCII digit; otherwise discard leading
zeros, read the digit run, chunk it into base 10^9, right-align the chunks,
and convert to base 2^32 limbs.  The two character-reading loops
(`while (is.peek() == '0') is.get();` and `while (isdigit(is.peek()))`) are
modeled by `takeWhile` runs on the remaining input. -/
def getDec (self : BigInteger) (s : IStream) : BigInteger × IStream :=
  let rest := s.input.drop s.pos
  match rest.head? with
  | none =>
      (⟨[0], false⟩, { s with failed := true })
  | some c0 =>
      if ¬ c0.isDigit then
        (⟨[0], false⟩, { s with failed := true })
      else
        let zeros := rest.takeWhile (fun c => c = '0')
        let afterZeros := rest.drop zeros.length
        let digits := afterZeros.takeWhile Char.isDigit
        let s1 : IStream := { s with pos := s.pos + zeros.length + digits.length }
        let (dec, value, logLen) :=
          chunkLoop (digits.map fun c => c.toNat - '0'.toNat) [] 0 0
        let decimal :=
          if logLen ≠ 0 then
            let pushed := dec ++ [value]
            (adjustRun (10 ^ (9 - logLen)) (10 ^ logLen) pushed.reverse).reverse
          else dec
        if decimal = [] then (⟨[0], false⟩, s1)
        else ({ self with value := convertLoop decimal.length decimal [] }, s1)

/-- operator>> (decimal basefield): clear the sign, skip whitespace and read
one character; on `+`/`-` record the sign and examine (via `get` then
`unget`) the following character; then getDec_ .  Reading `get()` at end of
input fails the stream and `unget` does not recover that. -/
def opExtract (self : BigInteger) (s : IStream) : BigInteger × IStream :=
  let self1 : BigInteger := { self with negative := false }
  let (c0, s1) := extractChar s
  match c0 with
  | none => getDec self1 s1
  | some c =>
      if c = '-' ∨ c = '+' then
        let self2 : BigInteger := { self1 with negative := decide (c = '-') }
        if s1.pos < s1.input.length then getDec self2 s1
        else getDec self2 { s1 with failed := true }
      else
        getDec self1 { s1 with pos := s1.pos - 1 }

/-- One pass of the conversion loop of putDec_ : long division, most
significant limb first, of the base-2^32 limb sequence by 10^9 with incoming
carry `value` (`value = value * base | *i` — the `|` equals `+` because the
carry is below 10^9). -/
def putDecPass (value : ℕ) : List ℕ → List ℕ × ℕ
  | [] => ([], value)
  | d :: ds =>
      let v := value * bigBase ||| d
      let (qs, r) := putDecPass (v % 1000000000) ds
      (v / 1000000000 :: qs, r)

/-- The outer loop of putDec_ :
`while (head + 1 != binary.rend()) { ...pass...; decimal.push_back(value);
if (!*head) ++head; } if (*head) decimal.push_back(*head);`.
The state is the live limb sequence from `head` down (most significant
first).  Every pass divides the live value by 10^9, and the head advances
past a limb that became zero, so `4 * length + 4` iterations of fuel cover
every input the source reaches (the live value starts below
`base ^ length ≤ (10^9) ^ (2 * length)`). -/
def putDecLoop : ℕ → List ℕ → List ℕ → List ℕ
  | _, [], dec => dec
  | _, [last], dec => if last ≠ 0 then dec ++ [last] else dec
  | 0, _ :: _ :: _, dec => dec
  | fuel + 1, cur, dec =>
      let (qs, r) := putDecPass 0 cur
      let next := match qs with
        | 0 :: tail => tail
        | other => other
      putDecLoop fuel next (dec ++ [r])

/-- Decimal digits of a machine word, least significant first (empty for 0);
64 digits of fuel cover every value below 10^64. -/
def decDigitsLoop : ℕ → ℕ → List ℕ
  | 0, _ => []
  | fuel + 1, n => if n = 0 then [] else n % 10 :: decDigitsLoop fuel (n / 10)

/-- The characters `operator<<` prints for an unsigned integer. -/
def printNat (n : ℕ) : List Char :=
  if n = 0 then ['0']
  else ((decDigitsLoop 64 n).reverse.map fun d => Char.ofNat ('0'.toNat + d))

/-- The zero-padding loop of putDec_ :
`for (j = logBase - 1; j != 0; --j) if (*i < pow10[j]) os.put('0'); else
break;`. -/
def padZeros (d : ℕ) : ℕ → List Char
  | 0 => []
  | j + 1 => if d < 10 ^ (j + 1) then '0' :: padZeros d j else []

/-- BigInteger::putDec_ : the canonical zero prints `0`; otherwise divide
the limb sequence repeatedly by 10^9, then print the leading chunk unpadded
and every following chunk zero-padded to 9 digits. -/
def putDec (a : BigInteger) : List Char :=
  if a.value.length = 1 ∧ a.value.headD 0 = 0 then ['0']
  else
    let dec := putDecLoop (4 * a.value.length + 4) a.value.reverse []
    printNat (dec.getLast!) ++
      (dec.dropLast.reverse.map fun d => padZeros d 8 ++ printNat d).flatten

/-- operator<< (decimal basefield): `if (self.negative) os.put('-');` then
putDec_ . -/
def opInsert (a : BigInteger) : List Char :=
  (if a.negative then ['-'] else []) ++ putDec a

/-- The canonical decimal form of a sign-and-digits string, as the
specification describes it: drop leading zeros; the zero value prints as
`0` without a sign; otherwise an optional `-` then the digits.  This
definition follows the specification's words, to be compared against the
source's parse-then-print round trip. -/
def canonicalForm (sgn ds : List Char) : List Char :=
  let stripped := ds.dropWhile (fun c => c = '0')
  if stripped = [] then ['0']
  else (if sgn = ['-'] then ['-'] else []) ++ stripped

/-- Value of a limb list, least significant limb first, in base 2^32. -/
def limbsVal (v : List ℕ) : ℕ := Nat.ofDigits bigBase v

/-- Value of a base-10^9 chunk list, least significant chunk first. -/
def chunksVal (d : List ℕ) : ℕ := Nat.ofDigits 1000000000 d

/-- Value of a decimal digit list, least significant digit first. -/
def digitsVal (d : List ℕ) : ℕ := Nat.ofDigits 10 d

/-- Proof-side decimal character list of a natural number (most significant
digit first). -/
def natChars (n : ℕ) : List Char :=
  (Nat.digits 10 n).reverse.map fun d => Char.ofNat ('0'.toNat + d)

/-- Reversal of the low `m` bits of `i`: the permutation index the
bit-reversal sweep of NTT_ realizes. -/
def bitrev : ℕ → ℕ → ℕ
  | 0, _ => 0
  | m + 1, i => i % 2 * 2 ^ m + bitrev m (i / 2)

/-- The loop body of the bit-reversal sweep, named for reasoning; 
`bitrevSweep n v` is literally `((List.range n).foldl (sweepGo n) (v, 0)).1`. -/
def sweepGo (n : ℕ) (s : List ℕ × ℕ) (i : ℕ) : List ℕ × ℕ :=
  let v := s.1
  let j := s.2
  let v1 := if j < i then (v.set i (v.getD j 0)).set j (v.getD i 0) else v
  (v1, revStep j n)

/-- The modular-add the butterfly stores at the low position:
`value[j + k] = a + z < mod ? a + z : a + z - mod`. -/
def bflyAdd (a z : ℕ) : ℕ := if a + z < bigMod then a + z else a + z - bigMod

/-- The modular subtract the butterfly stores at the high position:
`value[i + j + k] = a < z ? a + mod - z : a - z`. -/
def bflySub (a z : ℕ) : ℕ := if a < z then a + bigMod - z else a - z

/-- Absolute value of a truncating remainder (C++ `%` on `int64_t`). -/
theorem natAbs_tmod_eq (m n : ℤ) : (Int.tmod m n).natAbs = m.natAbs % n.natAbs := by
  cases m <;> cases n <;> simp [Int.tmod, Int.natAbs_neg] <;> norm_cast

/-- Helper: the starting index of the trimLeadingZeros_ walk is always among
the indices it reads. -/
theorem mem_trimLenReads (v : List ℕ) (n : ℕ) : n ∈ trimLenReads v n := by
  cases n with
  | zero => simp [trimLenReads]
  | succ m =>
      unfold trimLenReads
      split <;> simp

/-- C1: multiplying `a = 3000000000` (one limb) by `k = 2` must equal
`a` added twice to a canonical zero, i.e. `6000000000 = [1705032704, 1]`;
operator*= instead reduces the convolution coefficient `6000000000` modulo
`mod = 3221225473` and returns the single limb `2778774527` — the NTT path
has no carry propagation, so the product is wrong whenever a convolution
coefficient reaches `mod`. -/
theorem C1_mul_repeated_addition_fails :
    opMulAssign ⟨[3000000000], false⟩ (fromInt 2) = ⟨[2778774527], false⟩ ∧
    opAddAssign (opAddAssign ⟨[0], false⟩ ⟨[3000000000], false⟩)
        ⟨[3000000000], false⟩ = ⟨[1705032704, 1], false⟩ ∧
    opEq (opMulAssign ⟨[3000000000], false⟩ (fromInt 2))
        (opAddAssign (opAddAssign ⟨[0], false⟩ ⟨[3000000000], false⟩)
          ⟨[3000000000], false⟩) = false := by
  decide

/-- C3: on the equal-sign, equal-length, normalized pair `[1, 2]` (value
`2 * 2^32 + 1`) and `[2, 2]` (value `2 * 2^32 + 2`) the source's operator<
answers `false` although the lexicographic most-significant-first order the
specification describes answers `true` — `std::equal(..., std::less)`
requires EVERY aligned limb pair to satisfy `<`, which is not a
lexicographic comparison. -/
theorem C3_opLt_not_lexicographic :
    opLt ⟨[1, 2], false⟩ ⟨[2, 2], false⟩ = false ∧
    specMagLexLt [1, 2] [2, 2] = true := by
  decide

/-- C4: trichotomy fails: on the normalized pair `[1, 2]` and `[2, 2]`
(values `2 * 2^32 + 1` and `2 * 2^32 + 2`) none of `a < b`, `a == b`,
`a > b` holds. -/
theorem C4_trichotomy_fails :
    opLt ⟨[1, 2], false⟩ ⟨[2, 2], false⟩ = false ∧
    opEq ⟨[1, 2], false⟩ ⟨[2, 2], false⟩ = false ∧
    opGt ⟨[1, 2], false⟩ ⟨[2, 2], false⟩ = false := by
  decide

/-- C5: operator*= never combines the sign flags: `1 * (-1)` keeps the left
operand's `false` flag although the exclusive-or of the operand signs is
`true`. -/
theorem C5_mul_sign_not_xor :
    (opMulAssign (fromInt 1) (fromInt (-1))).negative = false ∧
    xor (fromInt 1).negative (fromInt (-1)).negative = true := by
  decide

/-- C6: pre-decrementing canonical zero wraps the limb to `2^32 - 1` with
the sign flag still non-negative (the borrow past the end is dropped and no
sign flip happens), so `++(--0)` is `2^32`, not `0`. -/
theorem C6_inc_dec_inverse_fails_at_zero :
    opDec ⟨[0], false⟩ = ⟨[4294967295], false⟩ ∧
    opInc (opDec ⟨[0], false⟩) = ⟨[0, 1], false⟩ ∧
    opEq (opInc (opDec ⟨[0], false⟩)) ⟨[0], false⟩ = false := by
  decide

/-- C7: `~(-1)` should be `-(-1) - 1 = 0` in canonical form, but the source
increments `-1` to canonical zero and then flips the sign flag, producing a
negative zero that operator== distinguishes from canonical zero. -/
theorem C7_not_of_minus_one_is_negative_zero :
    opNot (fromInt (-1)) = ⟨[0], true⟩ ∧
    opEq (opNot (fromInt (-1))) ⟨[0], false⟩ = false := by
  decide

/-- C8: the very first limb index read by the trimLeadingZeros_ walk is
`value.size()` itself, which is out of bounds for every limb vector. -/
theorem C8_trim_first_read_out_of_bounds :
    ∀ v : List ℕ, ∃ i ∈ trimReads v, ¬ i < v.length := by
  intro v
  exact ⟨v.length, mem_trimLenReads v v.length, lt_irrefl _⟩

/-- C9: on an input whose next token starts (after an optional sign) with
something other than an ASCII decimal digit, stream extraction leaves the
BigInteger at canonical zero — a single limb 0 with the sign flag false —
and marks the stream failed. -/
theorem C9_malformed_input_fails (a : BigInteger) (sgn rest : List Char)
    (hs : sgn = [] ∨ sgn = ['+'] ∨ sgn = ['-'])
    (hw : ∀ c, (sgn ++ rest).head? = some c → wsChar c = false)
    (hne : sgn ++ rest ≠ [])
    (hnd : ∀ c, rest.head? = some c → ¬ c.isDigit)
    (hnsgn : sgn = [] → ∀ c, rest.head? = some c → c ≠ '-' ∧ c ≠ '+') :
    (opExtract a ⟨sgn ++ rest, 0, false⟩).1 = ⟨[0], false⟩ ∧
      ((opExtract a ⟨sgn ++ rest, 0, false⟩).2).failed = true := by
  rcases hs with h | h | h <;> subst h
  · cases rest with
    | nil => simp at hne
    | cons c rs =>
        have hwc : wsChar c = false := hw c (by simp)
        have hdc : ¬ c.isDigit := hnd c (by simp)
        have hsc := hnsgn rfl c (by simp)
        simp [opExtract, extractChar, getDec, hwc, hdc, hsc.1, hsc.2]
  · cases rest with
    | nil =>
        simp [opExtract, extractChar, getDec, wsChar]
    | cons c rs =>
        have hdc : ¬ c.isDigit := hnd c (by simp)
        simp [opExtract, extractChar, getDec, wsChar, hdc]
  · cases rest with
    | nil =>
        simp [opExtract, extractChar, getDec, wsChar]
    | cons c rs =>
        have hdc : ¬ c.isDigit := hnd c (by simp)
        simp [opExtract, extractChar, getDec, wsChar, hdc]

/-- Witness for C9 at the concrete input `-x` (sign then a non-digit),
starting from a dirty BigInteger. -/
theorem C9_malformed_input_fails_witness :
    (['-'] = ([] : List Char) ∨ ['-'] = ['+'] ∨ ['-'] = ['-']) ∧
    (opExtract ⟨[7], true⟩ ⟨['-', 'x'], 0, false⟩).1 = ⟨[0], false⟩ ∧
      ((opExtract ⟨[7], true⟩ ⟨['-', 'x'], 0, false⟩).2).failed = true :=
  ⟨Or.inr (Or.inr rfl),
    C9_malformed_input_fails ⟨[7], true⟩ ['-'] ['x']
      (Or.inr (Or.inr rfl))
      (by intro c hc; simp at hc; subst hc; decide)
      (by decide)
      (by intro c hc; simp at hc; subst hc; decide)
      (fun h => absurd h (by decide))⟩

theorem chunkLoop_spec (ds : List ℕ) :
    ∀ dec v l, l ≤ 8 → v < 10 ^ l → (∀ x ∈ dec, x < 10 ^ 9) → (∀ d ∈ ds, d < 10) →
      (chunkLoop ds dec v l).2.2 ≤ 8 ∧
      (chunkLoop ds dec v l).2.1 < 10 ^ (chunkLoop ds dec v l).2.2 ∧
      (∀ x ∈ (chunkLoop ds dec v l).1, x < 10 ^ 9) ∧
      (chunkLoop ds dec v l).1.length = dec.length + (l + ds.length) / 9 ∧
      (chunkLoop ds dec v l).2.2 = (l + ds.length) % 9 ∧
      chunksVal (chunkLoop ds dec v l).1.reverse * 10 ^ (chunkLoop ds dec v l).2.2
          + (chunkLoop ds dec v l).2.1 =
        (chunksVal dec.reverse * 10 ^ l + v) * 10 ^ ds.length + digitsVal ds.reverse := by
  induction ds with
  | nil =>
      intro dec v l hl hv hdec _
      simp only [chunkLoop, List.length_nil, Nat.add_zero, pow_zero, mul_one]
      refine ⟨hl, hv, hdec, by omega, by omega, ?_⟩
      simp [digitsVal, Nat.ofDigits_nil]
  | cons d ds ih =>
      intro dec v l hl hv hdec hds
      have hd : d < 10 := hds d (by simp)
      have hds' : ∀ x ∈ ds, x < 10 := fun x hx => hds x (by simp [hx])
      have hpow : (10:ℕ) ^ (l + 1) = 10 ^ l * 10 := pow_succ 10 l
      rw [chunkLoop]
      by_cases hc : l + 1 = 9
      · rw [if_pos hc]
        have hnew : ∀ x ∈ dec ++ [v * 10 + d], x < 10 ^ 9 := by
          intro x hx
          rcases List.mem_append.mp hx with h | h
          · exact hdec x h
          · simp at h
            subst h
            have hl8 : l = 8 := by omega
            subst hl8
            norm_num at hv ⊢
            omega
        obtain ⟨h1, h2, h3, h4, h5, h6⟩ := ih (dec ++ [v * 10 + d]) 0 0
          (by omega) (by simp) hnew hds'
        refine ⟨h1, h2, h3, ?_, ?_, ?_⟩
        · simp only [List.length_append, List.length_cons, List.length_nil] at h4 ⊢
          omega
        · simp only [List.length_cons] at h5 ⊢
          omega
        · rw [h6]
          have hl8 : l = 8 := by omega
          subst hl8
          simp only [chunksVal, digitsVal, List.reverse_append, List.reverse_cons,
            List.reverse_nil, List.nil_append, List.cons_append, Nat.ofDigits_cons,
            Nat.ofDigits_append, Nat.ofDigits_nil, List.length_reverse, List.length_cons]
          ring
      · rw [if_neg hc]
        obtain ⟨h1, h2, h3, h4, h5, h6⟩ := ih dec (v * 10 + d) (l + 1)
          (by omega) (by omega) hdec hds'
        refine ⟨h1, h2, h3, ?_, ?_, ?_⟩
        · simp only [List.length_cons] at h4 ⊢
          omega
        · simp only [List.length_cons] at h5 ⊢
          omega
        · rw [h6]
          simp only [chunksVal, digitsVal, List.reverse_cons, Nat.ofDigits_cons,
            Nat.ofDigits_append, Nat.ofDigits_nil, List.length_reverse, List.length_cons,
            pow_succ]
          ring

theorem adjustLoop_spec (shift len : ℕ) (hs : 0 < shift)
    (hmul : shift * len = 10 ^ 9) :
    ∀ rest prev, prev < len → (∀ x ∈ rest, x < 10 ^ 9) →
      chunksVal (adjustLoop shift len prev rest) = prev + len * chunksVal rest ∧
      (∀ x ∈ adjustLoop shift len prev rest, x < 10 ^ 9) ∧
      (adjustLoop shift len prev rest).length = rest.length + 1 := by
  have hlen0 : 0 < len := Nat.pos_of_ne_zero (fun h => by simp [h] at hmul)
  have hmul' : shift * len = 1000000000 := by rw [hmul]; norm_num
  have hls : len * shift = 1000000000 := by rw [mul_comm]; exact hmul'
  intro rest
  induction rest with
  | nil =>
      intro prev hp _
      have hlen : len ≤ 10 ^ 9 := Nat.le_of_dvd (by norm_num) ⟨shift, by omega⟩
      refine ⟨?_, ?_, by simp [adjustLoop]⟩
      · simp [adjustLoop, chunksVal, Nat.ofDigits_cons, Nat.ofDigits_nil]
      · intro x hx
        simp [adjustLoop] at hx
        omega
  | cons h rest ih =>
      intro prev hp hall
      have hh : h < 10 ^ 9 := hall h (by simp)
      have hq : h / shift < len := Nat.div_lt_of_lt_mul (by omega)
      obtain ⟨ih1, ih2, ih3⟩ := ih (h / shift) hq (fun x hx => hall x (by simp [hx]))
      have hmd := Nat.mod_add_div h shift
      have hbound : h % shift * len + len ≤ 10 ^ 9 := by
        have h1 : h % shift + 1 ≤ shift := Nat.mod_lt h hs
        have h2 : (h % shift + 1) * len ≤ shift * len := Nat.mul_le_mul_right _ h1
        rw [add_mul, one_mul] at h2
        omega
      refine ⟨?_, ?_, by simp [adjustLoop, ih3]⟩
      · simp only [adjustLoop, chunksVal, Nat.ofDigits_cons] at ih1 ⊢
        rw [ih1]
        set A := h % shift with hA
        set B := h / shift with hB
        rw [← hls, ← hmd]
        ring
      · intro x hx
        simp only [adjustLoop, List.mem_cons] at hx
        rcases hx with hx | hx
        · subst hx
          omega
        · exact ih2 x hx

theorem divBasePass_spec : ∀ cs v, v < bigBase → (∀ x ∈ cs, x < 10 ^ 9) →
    (divBasePass v cs).2 < bigBase ∧
    (∀ x ∈ (divBasePass v cs).1, x < 10 ^ 9) ∧
    (divBasePass v cs).1.length = cs.length ∧
    chunksVal (divBasePass v cs).1.reverse * bigBase + (divBasePass v cs).2 =
      v * 1000000000 ^ cs.length + chunksVal cs.reverse := by
  intro cs
  induction cs with
  | nil =>
      intro v hv _
      simp [divBasePass, chunksVal, Nat.ofDigits_nil]
      exact hv
  | cons c cs ih =>
      intro v hv hall
      have hc : c < 10 ^ 9 := hall c (by simp)
      have hB : (0:ℕ) < bigBase := by norm_num [bigBase]
      obtain ⟨ih1, ih2, ih3, ih4⟩ := ih ((v * 1000000000 + c) % bigBase)
        (Nat.mod_lt _ hB) (fun x hx => hall x (by simp [hx]))
      have hqb : (v * 1000000000 + c) / bigBase < 10 ^ 9 := by
        rw [Nat.div_lt_iff_lt_mul hB]
        have : v * 1000000000 ≤ (bigBase - 1) * 1000000000 :=
          Nat.mul_le_mul_right _ (by omega)
        norm_num [bigBase] at this ⊢
        omega
      have hsplit := Nat.mod_add_div (v * 1000000000 + c) bigBase
      refine ⟨ih1, ?_, by simp [divBasePass, ih3], ?_⟩
      · intro x hx
        simp only [divBasePass, List.mem_cons] at hx
        rcases hx with hx | hx
        · subst hx; exact hqb
        · exact ih2 x hx
      · simp only [divBasePass, List.reverse_cons, chunksVal, Nat.ofDigits_append,
          Nat.ofDigits_cons, Nat.ofDigits_nil, List.length_reverse, List.length_cons, ih3]
        simp only [chunksVal] at ih4
        zify at ih4 hsplit ⊢
        linear_combination ih4 + (1000000000:ℤ) ^ cs.length * hsplit

theorem convertLoop_spec : ∀ fuel chunks acc, chunks ≠ [] → chunks.length ≤ fuel + 1 →
    (∀ x ∈ chunks, x < 10 ^ 9) →
    ∃ tail, convertLoop fuel chunks acc = acc ++ tail ∧
      limbsVal tail = chunksVal chunks.reverse ∧
      (∀ x ∈ tail, x < bigBase) ∧
      tail.length = chunks.length - 1 +
        (if chunksVal chunks.reverse / bigBase ^ (chunks.length - 1) ≠ 0 then 1 else 0) := by
  have single : ∀ fuel (c : ℕ) acc, (∀ x ∈ [c], x < 10 ^ 9) →
      ∃ tail, convertLoop fuel [c] acc = acc ++ tail ∧
        limbsVal tail = chunksVal [c].reverse ∧
        (∀ x ∈ tail, x < bigBase) ∧
        tail.length = ([c].length - 1 : ℕ) +
          (if chunksVal [c].reverse / bigBase ^ (([c].length : ℕ) - 1) ≠ 0 then 1 else 0) := by
    intro fuel c acc hall
    have hc : c < 10 ^ 9 := hall c (by simp)
    refine ⟨if c ≠ 0 then [c] else [], ?_, ?_, ?_, ?_⟩
    · cases fuel <;> cases' Decidable.em (c ≠ 0) with h h <;> simp [convertLoop, h]
    · cases' Decidable.em (c ≠ 0) with h h <;>
        simp [limbsVal, chunksVal, Nat.ofDigits_cons, Nat.ofDigits_nil, h] <;> omega
    · intro x hx
      cases' Decidable.em (c ≠ 0) with h h <;> simp [h] at hx
      subst hx
      norm_num [bigBase]
      omega
    · cases' Decidable.em (c ≠ 0) with h h <;>
        simp [chunksVal, Nat.ofDigits_cons, Nat.ofDigits_nil, h]
  intro fuel
  induction fuel with
  | zero =>
      intro chunks acc hne hlen hall
      match chunks, hne with
      | [c], _ => exact single 0 c acc hall
      | c1 :: c2 :: cs, _ => simp at hlen
  | succ fuel ih =>
      intro chunks acc hne hlen hall
      match chunks, hne with
      | [c], _ => exact single (fuel + 1) c acc hall
      | c1 :: c2 :: cs, _ =>
          have hc1 : c1 < bigBase := by
            have := hall c1 (by simp)
            norm_num [bigBase]
            omega
          obtain ⟨p1, p2, p3, p4⟩ := divBasePass_spec (c2 :: cs) c1 hc1
            (fun x hx => hall x (by simp [hx]))
          rcases hpair : divBasePass c1 (c2 :: cs) with ⟨qs, r⟩
          rw [hpair] at p1 p2 p3 p4
          simp only at p1 p2 p3 p4
          have hstep : convertLoop (fuel + 1) (c1 :: c2 :: cs) acc =
              convertLoop fuel qs (acc ++ [r]) := by
            simp [convertLoop, hpair]
          have hqne : qs ≠ [] := by
            intro h
            rw [h] at p3
            simp at p3
          have hqlen : qs.length ≤ fuel + 1 := by
            rw [p3]
            simp only [List.length_cons] at hlen ⊢
            omega
          obtain ⟨tail, t1, t2, t3, t4⟩ := ih qs (acc ++ [r]) hqne hqlen p2
          have hB : (0:ℕ) < bigBase := by norm_num [bigBase]
          have hN : chunksVal qs.reverse * bigBase + r =
              chunksVal (c1 :: c2 :: cs).reverse := by
            rw [p4]
            simp only [chunksVal, List.reverse_cons, Nat.ofDigits_append,
              Nat.ofDigits_cons, Nat.ofDigits_nil, List.length_reverse, List.length_cons,
              List.length_append, List.length_nil]
            zify
            push_cast [pow_succ]
            ring
          have hQ : chunksVal qs.reverse = chunksVal (c1 :: c2 :: cs).reverse / bigBase := by
            rw [← hN, mul_comm]
            rw [Nat.mul_add_div hB]
            have : r / bigBase = 0 := Nat.div_eq_of_lt p1
            omega
          refine ⟨r :: tail, ?_, ?_, ?_, ?_⟩
          · rw [hstep, t1]
            simp
          · simp only [limbsVal, Nat.ofDigits_cons] at t2 ⊢
            rw [t2]
            zify at hN ⊢
            linear_combination hN
          · intro x hx
            rcases List.mem_cons.mp hx with hx | hx
            · subst hx; exact p1
            · exact t3 x hx
          · have p3' : qs.length = cs.length + 1 := by simpa using p3
            rw [hQ, p3'] at t4
            have hdd : chunksVal (c1 :: c2 :: cs).reverse / bigBase /
                bigBase ^ (cs.length + 1 - 1) =
                chunksVal (c1 :: c2 :: cs).reverse / bigBase ^ (cs.length + 1) := by
              simp only [Nat.add_sub_cancel]
              rw [Nat.div_div_eq_div_mul, ← pow_succ' bigBase cs.length]
            rw [hdd] at t4
            simp only [List.length_cons, Nat.add_sub_cancel] at t4 ⊢
            omega

theorem digit_char_val_lt (c : Char) (h : c.isDigit) : c.toNat - '0'.toNat < 10 := by
  simp [Char.isDigit] at h
  obtain ⟨h1, h2⟩ := h
  have h1n : (48 : UInt32).toNat ≤ c.val.toNat := h1
  have h2n : c.val.toNat ≤ (57 : UInt32).toNat := h2
  have e1 : (48 : UInt32).toNat = 48 := rfl
  have e2 : (57 : UInt32).toNat = 57 := rfl
  have e3 : c.toNat = c.val.toNat := rfl
  have e4 : '0'.toNat = 48 := rfl
  omega

theorem digit_char_toNat_bounds (c : Char) (h : c.isDigit) :
    48 ≤ c.toNat ∧ c.toNat ≤ 57 := by
  simp [Char.isDigit] at h
  obtain ⟨h1, h2⟩ := h
  have h1n : (48 : UInt32).toNat ≤ c.val.toNat := h1
  have h2n : c.val.toNat ≤ (57 : UInt32).toNat := h2
  have e1 : (48 : UInt32).toNat = 48 := rfl
  have e2 : (57 : UInt32).toNat = 57 := rfl
  have e3 : c.toNat = c.val.toNat := rfl
  omega

theorem char_eq_of_toNat_eq (c d : Char) (h : c.toNat = d.toNat) : c = d :=
  Char.ext (UInt32.ext h)

theorem decimal_of_digits_spec (vs : List ℕ) (hvs : ∀ v ∈ vs, v < 10)
    (hne : vs ≠ []) (dec : List ℕ) (v1 l1 : ℕ)
    (hrun : chunkLoop vs [] 0 0 = (dec, v1, l1)) :
    ∃ decimal : List ℕ,
      (if l1 ≠ 0 then (adjustRun (10 ^ (9 - l1)) (10 ^ l1) ((dec ++ [v1]).reverse)).reverse
        else dec) = decimal ∧
      decimal ≠ [] ∧ (∀ x ∈ decimal, x < 10 ^ 9) ∧
      chunksVal decimal.reverse = digitsVal vs.reverse ∧
      9 * (decimal.length - 1) + 1 ≤ vs.length ∧ vs.length ≤ 9 * decimal.length := by
  obtain ⟨h1, h2, h3, h4, h5, h6⟩ := chunkLoop_spec vs [] 0 0 (by omega) (by simp)
    (by simp) hvs
  rw [hrun] at h1 h2 h3 h4 h5 h6
  simp only at h1 h2 h3 h4 h5 h6
  simp only [List.length_nil, Nat.zero_add, chunksVal, List.reverse_nil,
    Nat.ofDigits_nil, pow_zero, Nat.mul_one, Nat.zero_mul, Nat.one_mul,
    Nat.add_zero] at h4 h5 h6
  -- h4 : dec.length = vs.length / 9 ; h5 : l1 = vs.length % 9
  -- h6 : chunksVal dec.reverse * 10 ^ l1 + v1 = digitsVal vs.reverse
  have hnlen : 1 ≤ vs.length := by
    cases vs with
    | nil => exact absurd rfl hne
    | cons x xs => simp
  by_cases hl : l1 = 0
  · subst hl
    rw [if_neg (by simp)]
    have hv0 : v1 = 0 := by
      have := h2
      simp at this
      omega
    refine ⟨dec, rfl, ?_, h3, ?_, ?_, ?_⟩
    · intro hd
      rw [hd] at h4
      simp at h4
      omega
    · rw [← h6, hv0]
      simp [chunksVal]
    · omega
    · omega
  · rw [if_pos hl]
    have hs0 : 0 < (10:ℕ) ^ (9 - l1) := by positivity
    have hsl : (10:ℕ) ^ (9 - l1) * 10 ^ l1 = 10 ^ 9 := by
      rw [← pow_add]
      congr 1
      omega
    have hrev : (dec ++ [v1]).reverse = v1 :: dec.reverse := by simp
    obtain ⟨a1, a2, a3⟩ := adjustLoop_spec (10 ^ (9 - l1)) (10 ^ l1) hs0 hsl
      dec.reverse v1 h2 (by
        intro x hx
        exact h3 x (List.mem_reverse.mp hx))
    refine ⟨_, rfl, ?_, ?_, ?_, ?_, ?_⟩
    · rw [hrev]
      intro hd
      have := congrArg List.length hd
      simp [adjustRun, a3] at this
    · intro x hx
      rw [hrev] at hx
      simp only [adjustRun, List.mem_reverse] at hx
      exact a2 x hx
    · rw [hrev]
      simp only [adjustRun, List.reverse_reverse]
      rw [a1, ← h6]
      simp only [chunksVal]
      ring
    · rw [hrev]
      simp only [adjustRun, List.length_reverse, a3, List.length_reverse]
      omega
    · rw [hrev]
      simp only [adjustRun, List.length_reverse, a3, List.length_reverse]
      omega

theorem getDec_spec_pos (a : BigInteger) (inp : List Char) (p : ℕ) (f : Bool)
    (zeros stripped tail : List Char) (c : Char) (cs : List Char)
    (hstr : stripped = c :: cs)
    (hdrop : inp.drop p = (zeros ++ stripped) ++ tail)
    (hz : ∀ x ∈ zeros, x = '0')
    (hdig : ∀ x ∈ stripped, x.isDigit)
    (hc0 : c ≠ '0')
    (htail : ∀ x, tail.head? = some x → ¬ x.isDigit) :
    ∃ limbs,
      getDec a ⟨inp, p, f⟩ =
        ({ a with value := limbs }, ⟨inp, p + zeros.length + stripped.length, f⟩) ∧
      limbs ≠ [] ∧ (∀ x ∈ limbs, x < bigBase) ∧
      limbsVal limbs = digitsVal ((stripped.map fun x => x.toNat - '0'.toNat)).reverse ∧
      1000000000 ^ (limbs.length - 1) ≤ limbsVal limbs := by
  subst hstr
  have hc : c.isDigit := hdig c (by simp)
  -- digit values
  have hvslt : ∀ v ∈ (c :: cs).map (fun x => x.toNat - '0'.toNat), v < 10 := by
    intro v hv
    simp only [List.mem_map] at hv
    obtain ⟨x, hx, hvx⟩ := hv
    subst hvx
    exact digit_char_val_lt x (hdig x hx)
  rcases hrun : chunkLoop ((c :: cs).map (fun x => x.toNat - '0'.toNat)) [] 0 0
    with ⟨dec, v1, l1⟩
  obtain ⟨decimal, hdec, hdne, hdlt, hdval, hdlo, hdhi⟩ :=
    decimal_of_digits_spec _ hvslt (by simp) dec v1 l1 hrun
  obtain ⟨tailL, t1, t2, t3, t4⟩ :=
    convertLoop_spec decimal.length decimal [] hdne (by omega) hdlt
  -- numeric value and its lower bound
  have hv0 : 1 ≤ c.toNat - '0'.toNat := by
    obtain ⟨hb1, hb2⟩ := digit_char_toNat_bounds c hc
    have : c.toNat ≠ 48 := fun h => hc0 (char_eq_of_toNat_eq c '0' h)
    have h0 : '0'.toNat = 48 := rfl
    omega
  have hmaplen : ((c :: cs).map fun x => x.toNat - '0'.toNat).length = cs.length + 1 := by
    simp
  rw [hmaplen] at hdlo hdhi
  have hNlow : 10 ^ cs.length ≤
      digitsVal (((c :: cs).map fun x => x.toNat - '0'.toNat)).reverse := by
    simp only [List.map_cons, List.reverse_cons, digitsVal, Nat.ofDigits_append,
      Nat.ofDigits_cons, Nat.ofDigits_nil, List.length_reverse, List.length_map]
    have h1 : 10 ^ cs.length * 1 ≤ 10 ^ cs.length * (c.toNat - '0'.toNat + 10 * 0) :=
      Nat.mul_le_mul_left _ (by omega)
    omega
  have ht4' : tailL.length ≤ decimal.length ∧ decimal.length ≤ tailL.length + 1 := by
    by_cases hfin : chunksVal decimal.reverse / bigBase ^ (decimal.length - 1) ≠ 0 <;>
      simp [hfin] at t4 <;> omega
  have hdpos : 1 ≤ decimal.length := by
    cases decimal with
    | nil => exact absurd rfl hdne
    | cons d dsx => simp
  have hlen9 : 9 * (tailL.length - 1) ≤ cs.length := by
    by_cases hfin : chunksVal decimal.reverse / bigBase ^ (decimal.length - 1) ≠ 0
    · simp [hfin] at t4
      omega
    · simp [hfin] at t4
      omega
  have hten : (1000000000:ℕ) = 10 ^ 9 := by norm_num
  have hlimb : 1000000000 ^ (tailL.length - 1) ≤ limbsVal tailL := by
    rw [t2, hdval]
    calc (1000000000:ℕ) ^ (tailL.length - 1)
        = 10 ^ (9 * (tailL.length - 1)) := by rw [hten, ← pow_mul]
      _ ≤ 10 ^ cs.length := Nat.pow_le_pow_right (by norm_num) hlen9
      _ ≤ _ := hNlow
  have hlne : tailL ≠ [] := by
    intro habs
    rw [habs] at t2
    simp only [limbsVal, Nat.ofDigits_nil] at t2
    rw [hdval] at t2
    have hp : 0 < 10 ^ cs.length := by positivity
    omega
  refine ⟨tailL, ?_, hlne, t3, by rw [t2, hdval], hlimb⟩
  -- now the reduction of getDec itself
  have hh1 : ((zeros ++ (c :: cs)) ++ tail).head? = some (zeros.headD c) := by
    cases zeros with
    | nil => simp
    | cons z zs => simp
  have hh2 : (zeros.headD c).isDigit := by
    cases zeros with
    | nil => simpa using hc
    | cons z zs =>
        have : z = '0' := hz z (by simp)
        simp [this]
  have htw : ((zeros ++ (c :: cs)) ++ tail).takeWhile (fun x => x = '0') = zeros := by
    rw [List.append_assoc]
    rw [List.takeWhile_append_of_pos (by intro x hx; simp [hz x hx])]
    simp [hc0]
  have hdw : ((zeros ++ (c :: cs)) ++ tail).drop zeros.length = (c :: cs) ++ tail := by
    rw [List.append_assoc, List.drop_left]
  have htd : ((c :: cs) ++ tail).takeWhile Char.isDigit = c :: cs := by
    rw [List.takeWhile_append_of_pos hdig]
    cases tail with
    | nil => simp
    | cons t ts =>
        have : ¬ t.isDigit := htail t (by simp)
        simp [this]
  simp only [getDec]
  rw [hdrop, hh1]
  simp only [hh2, not_true, if_false, Bool.not_eq_true]
  rw [htw, hdw, htd, hrun]
  simp only [hdec]
  rw [if_neg hdne, t1]
  simp

theorem getDec_spec_zero (a : BigInteger) (inp : List Char) (p : ℕ) (f : Bool)
    (zeros tail : List Char)
    (hdrop : inp.drop p = zeros ++ tail)
    (hzne : zeros ≠ [])
    (hz : ∀ x ∈ zeros, x = '0')
    (htail : ∀ x, tail.head? = some x → ¬ x.isDigit) :
    getDec a ⟨inp, p, f⟩ = (⟨[0], false⟩, ⟨inp, p + zeros.length, f⟩) := by
  match zeros, hzne with
  | z :: zs, _ =>
  have hz0 : z = '0' := hz z (by simp)
  have hh1 : ((z :: zs) ++ tail).head? = some z := by simp
  have htw : ((z :: zs) ++ tail).takeWhile (fun x => x = '0') = z :: zs := by
    rw [List.takeWhile_append_of_pos (by intro x hx; simp [hz x hx])]
    cases tail with
    | nil => simp
    | cons t ts =>
        have htd : ¬ t.isDigit := htail t (by simp)
        have : ¬ t = '0' := by
          intro h
          subst h
          exact htd (by decide)
        simp [this]
  have hdw : ((z :: zs) ++ tail).drop (z :: zs).length = tail := List.drop_left _ _
  have htd : tail.takeWhile Char.isDigit = [] := by
    cases tail with
    | nil => simp
    | cons t ts =>
        have : ¬ t.isDigit := htail t (by simp)
        simp [this]
  simp only [getDec]
  rw [hdrop, hh1]
  have hzd : z.isDigit := by rw [hz0]; decide
  simp only [hzd, not_true, if_false, Bool.not_eq_true]
  rw [htw, hdw, htd]
  have hrun : chunkLoop (([] : List Char).map fun x => x.toNat - '0'.toNat) [] 0 0 =
      ([], 0, 0) := rfl
  simp [chunkLoop]

theorem mul_pow_lor_eq_add (k a d : ℕ) (h : d < 2 ^ k) :
    a * 2 ^ k ||| d = a * 2 ^ k + d := by
  apply Nat.eq_of_testBit_eq
  intro i
  rw [Nat.testBit_lor, Nat.testBit_to_div_mod, Nat.testBit_to_div_mod,
    Nat.testBit_to_div_mod]
  rcases Nat.lt_or_ge i k with hik | hik
  · have hsplit : (2:ℕ) ^ k = 2 ^ (k - i) * 2 ^ i := by
      rw [← pow_add]
      congr 1
      omega
    have h1 : a * 2 ^ k / 2 ^ i = a * 2 ^ (k - i) := by
      rw [hsplit, ← Nat.mul_assoc, Nat.mul_div_cancel _ (Nat.pos_pow_of_pos _ (by norm_num))]
    have h2 : (a * 2 ^ k + d) / 2 ^ i = a * 2 ^ (k - i) + d / 2 ^ i := by
      rw [hsplit, ← Nat.mul_assoc, Nat.mul_comm (a * 2 ^ (k - i)) (2 ^ i),
        Nat.mul_add_div (Nat.pos_pow_of_pos _ (by norm_num))]
    have heven : a * 2 ^ (k - i) % 2 = 0 := by
      have : (2:ℕ) ^ (k - i) = 2 ^ (k - i - 1) * 2 := by
        rw [← pow_succ]
        congr 1
        omega
      rw [this, ← Nat.mul_assoc]
      simp [Nat.mul_mod_left]
    rw [h1, h2]
    have : (a * 2 ^ (k - i) + d / 2 ^ i) % 2 = d / 2 ^ i % 2 := by
      omega
    rw [this]
    simp [heven]
  · have hd0 : d / 2 ^ i = 0 := Nat.div_eq_of_lt (lt_of_lt_of_le h (Nat.pow_le_pow_right (by norm_num) hik))
    have hsplit : (2:ℕ) ^ i = 2 ^ k * 2 ^ (i - k) := by
      rw [← pow_add]
      congr 1
      omega
    have h1 : (a * 2 ^ k + d) / 2 ^ i = a / 2 ^ (i - k) := by
      rw [hsplit, ← Nat.div_div_eq_div_mul, Nat.mul_comm a (2 ^ k),
        Nat.mul_add_div (Nat.pos_pow_of_pos _ (by norm_num)), Nat.div_eq_of_lt h, Nat.add_zero]
    have h2 : a * 2 ^ k / 2 ^ i = a / 2 ^ (i - k) := by
      rw [hsplit, ← Nat.div_div_eq_div_mul, Nat.mul_div_cancel _ (Nat.pos_pow_of_pos _ (by norm_num))]
    rw [h1, h2, hd0]
    simp

theorem putDecPass_spec : ∀ ds v, v < 1000000000 → (∀ x ∈ ds, x < bigBase) →
    (putDecPass v ds).2 < 1000000000 ∧
    (∀ x ∈ (putDecPass v ds).1, x < bigBase) ∧
    (putDecPass v ds).1.length = ds.length ∧
    limbsVal (putDecPass v ds).1.reverse * 1000000000 + (putDecPass v ds).2 =
      v * bigBase ^ ds.length + limbsVal ds.reverse := by
  intro ds
  induction ds with
  | nil =>
      intro v hv _
      simp [putDecPass, limbsVal, Nat.ofDigits_nil]
      exact hv
  | cons d ds ih =>
      intro v hv hall
      have hd : d < bigBase := hall d (by simp)
      have hBeq : bigBase = 2 ^ 32 := rfl
      have hlor : v * bigBase ||| d = v * bigBase + d := by
        rw [hBeq]
        exact mul_pow_lor_eq_add 32 v d (hBeq ▸ hd)
      have h9 : (0:ℕ) < 1000000000 := by norm_num
      obtain ⟨ih1, ih2, ih3, ih4⟩ := ih ((v * bigBase + d) % 1000000000)
        (Nat.mod_lt _ h9) (fun x hx => hall x (by simp [hx]))
      rcases hpair : putDecPass ((v * bigBase + d) % 1000000000) ds with ⟨qs, r⟩
      rw [hpair] at ih1 ih2 ih3 ih4
      simp only at ih1 ih2 ih3 ih4
      have hqb : (v * bigBase + d) / 1000000000 < bigBase := by
        rw [Nat.div_lt_iff_lt_mul h9]
        have : v * bigBase ≤ (1000000000 - 1) * bigBase :=
          Nat.mul_le_mul_right _ (by omega)
        have hB0 : (0:ℕ) < bigBase := by norm_num [bigBase]
        nlinarith
      have hsplit := Nat.mod_add_div (v * bigBase + d) 1000000000
      have hred : putDecPass v (d :: ds) = ((v * bigBase + d) / 1000000000 :: qs, r) := by
        simp only [putDecPass, hlor, hpair]
      rw [hred]
      refine ⟨ih1, ?_, by simp [ih3], ?_⟩
      · intro x hx
        simp only [List.mem_cons] at hx
        rcases hx with hx | hx
        · subst hx; exact hqb
        · exact ih2 x hx
      · simp only [List.reverse_cons, limbsVal, Nat.ofDigits_append,
          Nat.ofDigits_cons, Nat.ofDigits_nil, List.length_reverse, List.length_cons, ih3]
        simp only [limbsVal] at ih4
        zify at ih4 hsplit ⊢
        push_cast [pow_succ]
        linear_combination ih4 + ((bigBase:ℤ)) ^ ds.length * hsplit

theorem msb_head_pos_val (h : ℕ) (t : List ℕ) (hh : 1 ≤ h) :
    bigBase ^ t.length ≤ limbsVal (h :: t).reverse := by
  simp only [List.reverse_cons, limbsVal, Nat.ofDigits_append, Nat.ofDigits_cons,
    Nat.ofDigits_nil, List.length_reverse]
  have h1 : bigBase ^ t.length * 1 ≤ bigBase ^ t.length * (h + bigBase * 0) :=
    Nat.mul_le_mul_left _ (by omega)
  omega

theorem putDecLoop_spec : ∀ fuel cur dec,
    cur ≠ [] →
    (∀ x ∈ cur, x < bigBase) →
    1000000000 ^ (cur.length - 1) ≤ limbsVal cur.reverse →
    limbsVal cur.reverse < 1000000000 ^ (fuel - cur.length) →
    cur.length ≤ fuel →
    ∃ body g, putDecLoop fuel cur dec = dec ++ (body ++ [g]) ∧
      (∀ x ∈ body, x < 1000000000) ∧
      1 ≤ g ∧ g < bigBase ∧
      chunksVal (body ++ [g]) = limbsVal cur.reverse := by
  intro fuel
  induction fuel with
  | zero =>
      intro cur dec hne hlt hlow hup hlen
      cases cur with
      | nil => exact absurd rfl hne
      | cons x xs => simp at hlen
  | succ fuel ih =>
      intro cur dec hne hlt hlow hup hlen
      match cur, hne with
      | [t], _ =>
          have ht1 : 1 ≤ t := by
            simpa [limbsVal, Nat.ofDigits_cons, Nat.ofDigits_nil] using hlow
          have htB : t < bigBase := hlt t (by simp)
          refine ⟨[], t, ?_, by simp, ht1, htB, ?_⟩
          · have htne : t ≠ 0 := by omega
            simp [putDecLoop, htne]
          · simp [chunksVal, limbsVal, Nat.ofDigits_cons, Nat.ofDigits_nil]
      | c1 :: c2 :: cs, _ =>
          obtain ⟨p1, p2, p3, p4⟩ := putDecPass_spec (c1 :: c2 :: cs) 0 (by norm_num) hlt
          rcases hpair : putDecPass 0 (c1 :: c2 :: cs) with ⟨qs, r⟩
          rw [hpair] at p1 p2 p3 p4
          simp only at p1 p2 p3 p4
          simp only [Nat.zero_mul, Nat.zero_add] at p4
          have hlen' : cs.length + 2 ≤ fuel + 1 := by simpa using hlen
          have hlow' : 1000000000 ^ (cs.length + 1) ≤ limbsVal (c1 :: c2 :: cs).reverse := by
            simpa using hlow
          have hup' : limbsVal (c1 :: c2 :: cs).reverse <
              1000000000 ^ (fuel + 1 - (cs.length + 2)) := by
            simpa using hup
          have hQ : limbsVal qs.reverse = limbsVal (c1 :: c2 :: cs).reverse / 1000000000 := by
            rw [← p4, mul_comm, Nat.mul_add_div (by norm_num)]
            have : r / 1000000000 = 0 := Nat.div_eq_of_lt p1
            omega
          have hQup : limbsVal qs.reverse < 1000000000 ^ (fuel - (cs.length + 2)) := by
            rw [hQ]
            apply Nat.div_lt_of_lt_mul
            calc limbsVal (c1 :: c2 :: cs).reverse
                < 1000000000 ^ (fuel + 1 - (cs.length + 2)) := hup'
              _ ≤ 1000000000 * 1000000000 ^ (fuel - (cs.length + 2)) := by
                  rw [← pow_succ']
                  apply Nat.pow_le_pow_right (by norm_num)
                  omega
          have hQlow : 1000000000 ^ cs.length ≤ limbsVal qs.reverse := by
            rw [hQ]
            apply (Nat.le_div_iff_mul_le (by norm_num)).mpr
            rw [← pow_succ]
            exact hlow'
          rcases hqs : qs with _ | ⟨q0, qtail⟩
          · rw [hqs] at p3
            simp at p3
          · subst hqs
            have hqtlen : qtail.length = cs.length + 1 := by
              simpa using p3
            cases q0 with
            | zero =>
                -- leading zero limb: the head advances
                have hqval : limbsVal qtail.reverse = limbsVal (0 :: qtail).reverse := by
                  simp [limbsVal, List.reverse_cons, Nat.ofDigits_append,
                    Nat.ofDigits_cons, Nat.ofDigits_nil]
                have hqtne : qtail ≠ [] := by
                  intro habs
                  rw [habs] at hqtlen
                  simp at hqtlen
                have step : putDecLoop (fuel + 1) (c1 :: c2 :: cs) dec =
                    putDecLoop fuel qtail (dec ++ [r]) := by
                  simp only [putDecLoop, hpair]
                obtain ⟨body, g, r1, r2, r3, r4, r5⟩ := ih qtail (dec ++ [r]) hqtne
                  (fun x hx => p2 x (by simp [hx]))
                  (by rw [hqval, hqtlen]; simpa using hQlow)
                  (by
                    rw [hqval, hqtlen]
                    calc limbsVal (0 :: qtail).reverse
                        < 1000000000 ^ (fuel - (cs.length + 2)) := hQup
                      _ ≤ 1000000000 ^ (fuel - (cs.length + 1)) := by
                          apply Nat.pow_le_pow_right (by norm_num)
                          omega)
                  (by omega)
                refine ⟨r :: body, g, ?_, ?_, r3, r4, ?_⟩
                · rw [step, r1]
                  simp
                · intro x hx
                  rcases List.mem_cons.mp hx with hx | hx
                  · subst hx; exact p1
                  · exact r2 x hx
                · simp only [List.cons_append, chunksVal, Nat.ofDigits_cons]
                  simp only [chunksVal] at r5
                  rw [r5, hqval, hQ]
                  omega
            | succ n =>
                have hq1 : 1 ≤ n + 1 := by omega
                have hqlow2 : 1000000000 ^ (((n + 1) :: qtail).length - 1) ≤
                    limbsVal ((n + 1) :: qtail).reverse := by
                  calc (1000000000:ℕ) ^ (((n + 1) :: qtail).length - 1)
                      ≤ bigBase ^ qtail.length := by
                        simp only [List.length_cons, Nat.add_sub_cancel]
                        exact Nat.pow_le_pow_left (by norm_num [bigBase]) _
                    _ ≤ limbsVal ((n + 1) :: qtail).reverse := msb_head_pos_val _ qtail hq1
                have hfuelge : ((n + 1) :: qtail).length ≤ fuel := by
                  by_contra habs
                  push_neg at habs
                  have hz : fuel - (cs.length + 2) = 0 := by
                    simp only [List.length_cons] at habs
                    omega
                  rw [hz, pow_zero] at hQup
                  have h0 : limbsVal ((n + 1) :: qtail).reverse = 0 := by omega
                  rw [h0] at hqlow2
                  have hgt : (0:ℕ) < 1000000000 ^ (((n + 1) :: qtail).length - 1) := by
                    positivity
                  omega
                have step : putDecLoop (fuel + 1) (c1 :: c2 :: cs) dec =
                    putDecLoop fuel ((n + 1) :: qtail) (dec ++ [r]) := by
                  simp only [putDecLoop, hpair]
                obtain ⟨body, g, r1, r2, r3, r4, r5⟩ := ih ((n + 1) :: qtail) (dec ++ [r])
                  (by simp) p2 hqlow2
                  (by
                    calc limbsVal ((n + 1) :: qtail).reverse
                        < 1000000000 ^ (fuel - (cs.length + 2)) := hQup
                      _ ≤ 1000000000 ^ (fuel - ((n + 1) :: qtail).length) := by
                          apply Nat.pow_le_pow_right (by norm_num)
                          simp only [List.length_cons]
                          omega)
                  hfuelge
                refine ⟨r :: body, g, ?_, ?_, r3, r4, ?_⟩
                · rw [step, r1]
                  simp
                · intro x hx
                  rcases List.mem_cons.mp hx with hx | hx
                  · subst hx; exact p1
                  · exact r2 x hx
                · simp only [List.cons_append, chunksVal, Nat.ofDigits_cons]
                  simp only [chunksVal] at r5
                  rw [r5]
                  omega

theorem decDigitsLoop_eq : ∀ fuel n, n < 10 ^ fuel →
    decDigitsLoop fuel n = Nat.digits 10 n := by
  intro fuel
  induction fuel with
  | zero =>
      intro n hn
      interval_cases n
      simp [decDigitsLoop]
  | succ fuel ih =>
      intro n hn
      rcases Nat.eq_zero_or_pos n with h0 | hpos
      · subst h0
        simp [decDigitsLoop]
      · rw [decDigitsLoop, if_neg (by omega), Nat.digits_def' (by norm_num) hpos]
        congr 1
        apply ih
        rw [Nat.div_lt_iff_lt_mul (by norm_num)]
        calc n < 10 ^ (fuel + 1) := hn
          _ = 10 ^ fuel * 10 := by rw [pow_succ]

theorem digits_len_le_iff (d k : ℕ) : (Nat.digits 10 d).length ≤ k ↔ d < 10 ^ k := by
  constructor
  · intro h
    calc d < 10 ^ (Nat.digits 10 d).length := Nat.lt_base_pow_length_digits (by norm_num)
      _ ≤ 10 ^ k := Nat.pow_le_pow_right (by norm_num) h
  · intro h
    by_contra habs
    push_neg at habs
    have hd0 : d ≠ 0 := by
      intro h0
      subst h0
      simp at habs
    have h1 : (10:ℕ) ^ (Nat.digits 10 d).length ≤ 10 * d :=
      Nat.base_pow_length_digits_le 10 d (by norm_num) hd0
    have h2 : (10:ℕ) ^ (k + 1) ≤ 10 ^ (Nat.digits 10 d).length :=
      Nat.pow_le_pow_right (by norm_num) (by omega)
    rw [pow_succ] at h2
    have : (10:ℕ) ^ k * 10 ≤ 10 * d := le_trans h2 h1
    omega

theorem padZeros_eq (d : ℕ) : ∀ j,
    padZeros d j = List.replicate (j + 1 - max 1 (Nat.digits 10 d).length) '0' := by
  intro j
  induction j with
  | zero =>
      simp [padZeros]
  | succ j ih =>
      rw [padZeros]
      by_cases h : d < 10 ^ (j + 1)
      · rw [if_pos h, ih]
        have hlen : (Nat.digits 10 d).length ≤ j + 1 := (digits_len_le_iff d (j + 1)).mpr h
        have : j + 1 + 1 - max 1 (Nat.digits 10 d).length =
            (j + 1 - max 1 (Nat.digits 10 d).length) + 1 := by
          omega
        rw [this]
        rfl
      · rw [if_neg h]
        have hlen : ¬ (Nat.digits 10 d).length ≤ j + 1 := by
          intro habs
          exact h ((digits_len_le_iff d (j + 1)).mp habs)
        have : j + 1 + 1 - max 1 (Nat.digits 10 d).length = 0 := by omega
        rw [this]
        rfl

theorem digits_chunk_expand : ∀ k (d M : ℕ), 1 ≤ M → d < 10 ^ k →
    Nat.digits 10 (d + 10 ^ k * M) =
      (Nat.digits 10 d ++ List.replicate (k - (Nat.digits 10 d).length) 0) ++
        Nat.digits 10 M := by
  intro k
  induction k with
  | zero =>
      intro d M hM hd
      have hd0 : d = 0 := by omega
      subst hd0
      simp
  | succ k ih =>
      intro d M hM hd
      have hNpos : 0 < d + 10 ^ (k + 1) * M := by positivity
      rw [Nat.digits_def' (by norm_num : (1:ℕ) < 10) hNpos]
      have hmod : (d + 10 ^ (k + 1) * M) % 10 = d % 10 := by
        have he : 10 ^ (k + 1) * M = 10 ^ k * M * 10 := by ring
        rw [he, Nat.add_mul_mod_self_right]
      have hdiv : (d + 10 ^ (k + 1) * M) / 10 = d / 10 + 10 ^ k * M := by
        have : 10 ^ (k + 1) * M = 10 ^ k * M * 10 := by ring
        rw [this]
        rw [Nat.add_mul_div_right _ _ (by norm_num : (0:ℕ) < 10)]
      rw [hmod, hdiv, ih (d / 10) M hM (by
        rw [Nat.div_lt_iff_lt_mul (by norm_num)]
        calc d < 10 ^ (k + 1) := hd
          _ = 10 ^ k * 10 := by rw [pow_succ])]
      rcases Nat.eq_zero_or_pos d with h0 | hpos
      · subst h0
        simp [List.replicate_succ]
      · rw [Nat.digits_def' (by norm_num : (1:ℕ) < 10) hpos]
        simp only [List.cons_append, List.length_cons]
        have heq : k + 1 - ((Nat.digits 10 (d / 10)).length + 1) =
            k - (Nat.digits 10 (d / 10)).length := by omega
        rw [heq]

theorem printNat_eq_natChars (n : ℕ) (h1 : 1 ≤ n) (h2 : n < 10 ^ 64) :
    printNat n = natChars n := by
  rw [printNat, if_neg (by omega), natChars, decDigitsLoop_eq 64 n h2]

theorem pad9_print (d : ℕ) (hd : d < 1000000000) :
    padZeros d 8 ++ printNat d =
      List.replicate (9 - (Nat.digits 10 d).length) '0' ++ natChars d := by
  rcases Nat.eq_zero_or_pos d with h0 | hpos
  · subst h0
    rw [padZeros_eq, printNat]
    simp only [Nat.digits_zero, List.length_nil, natChars, List.reverse_nil,
      List.map_nil, List.append_nil, if_pos rfl]
    norm_num
    decide
  · rw [padZeros_eq, printNat_eq_natChars d hpos (by
      calc d < 1000000000 := hd
        _ < 10 ^ 64 := by norm_num)]
    have hlen : 1 ≤ (Nat.digits 10 d).length :=
      List.length_pos.mpr (Nat.digits_ne_nil_iff_ne_zero.mpr (by omega))
    rw [show max 1 (Nat.digits 10 d).length = (Nat.digits 10 d).length by omega]

theorem natChars_chunk (d M : ℕ) (hM : 1 ≤ M) (hd : d < 1000000000) :
    natChars (d + 1000000000 * M) = natChars M ++ (padZeros d 8 ++ printNat d) := by
  have h9 : (1000000000:ℕ) = 10 ^ 9 := by norm_num
  rw [pad9_print d hd, natChars, h9, digits_chunk_expand 9 d M hM (by omega)]
  simp only [List.reverse_append, List.map_append, natChars, List.reverse_replicate,
    List.map_replicate]
  rfl

theorem chunksVal_concat_pos (body : List ℕ) (g : ℕ) (hg : 1 ≤ g) :
    1 ≤ chunksVal (body ++ [g]) := by
  simp only [chunksVal, Nat.ofDigits_append, Nat.ofDigits_cons, Nat.ofDigits_nil]
  have h1 : 1000000000 ^ body.length * 1 ≤ 1000000000 ^ body.length * (g + 1000000000 * 0) :=
    Nat.mul_le_mul_left _ (by omega)
  have h2 : 1 ≤ 1000000000 ^ body.length := Nat.one_le_pow _ _ (by norm_num)
  omega

theorem print_body_spec : ∀ body g, (∀ x ∈ body, x < 1000000000) → 1 ≤ g → g < bigBase →
    printNat g ++ ((body.reverse.map fun d => padZeros d 8 ++ printNat d)).flatten
      = natChars (chunksVal (body ++ [g])) := by
  intro body
  induction body with
  | nil =>
      intro g _ hg1 hg2
      simp only [List.reverse_nil, List.map_nil, List.flatten_nil, List.append_nil,
        List.nil_append, chunksVal, Nat.ofDigits_cons, Nat.ofDigits_nil]
      rw [printNat_eq_natChars g hg1 (by
        calc g < bigBase := hg2
          _ < 10 ^ 64 := by norm_num [bigBase])]
      norm_num
  | cons d body ih =>
      intro g hall hg1 hg2
      have hd : d < 1000000000 := hall d (by simp)
      have hM : 1 ≤ chunksVal (body ++ [g]) := chunksVal_concat_pos body g hg1
      rw [List.reverse_cons, List.map_append, List.flatten_append]
      rw [← List.append_assoc]
      rw [ih g (fun x hx => hall x (by simp [hx])) hg1 hg2]
      have hcv : chunksVal ((d :: body) ++ [g]) = d + 1000000000 * chunksVal (body ++ [g]) := by
        simp [chunksVal, Nat.ofDigits_cons]
      rw [hcv, natChars_chunk d _ hM hd]
      simp

theorem putDec_spec (a : BigInteger)
    (hne : a.value ≠ [])
    (hlt : ∀ x ∈ a.value, x < bigBase)
    (hlow : 1000000000 ^ (a.value.length - 1) ≤ limbsVal a.value) :
    putDec a = natChars (limbsVal a.value) := by
  have hVpos : 1 ≤ limbsVal a.value := by
    have h2 : 1 ≤ 1000000000 ^ (a.value.length - 1) := Nat.one_le_pow _ _ (by norm_num)
    omega
  have hnotzero : ¬ (a.value.length = 1 ∧ a.value.headD 0 = 0) := by
    rintro ⟨h1, h2⟩
    rcases hl : a.value with _ | ⟨x, xs⟩
    · exact hne hl
    · rw [hl] at h1 h2 hVpos
      simp only [List.length_cons] at h1
      have hxs : xs = [] := List.length_eq_zero.mp (by omega)
      subst hxs
      simp only [List.headD_cons] at h2
      subst h2
      simp [limbsVal, Nat.ofDigits_cons, Nat.ofDigits_nil] at hVpos
  have hcur : a.value.reverse.reverse = a.value := List.reverse_reverse _
  have hcurlen : a.value.reverse.length = a.value.length := List.length_reverse _
  have hVup : limbsVal a.value < bigBase ^ a.value.length := by
    have hb : 1 < bigBase := by norm_num [bigBase]
    exact Nat.ofDigits_lt_base_pow_length hb hlt
  obtain ⟨body, g, r1, r2, r3, r4, r5⟩ := putDecLoop_spec (4 * a.value.length + 4)
    a.value.reverse []
    (by simpa using hne)
    (by intro x hx; exact hlt x (List.mem_reverse.mp hx))
    (by rw [hcur, hcurlen]; exact hlow)
    (by
      rw [hcur, hcurlen]
      calc limbsVal a.value < bigBase ^ a.value.length := hVup
        _ ≤ 1000000000 ^ (2 * a.value.length) := by
            rw [pow_mul]
            apply Nat.pow_le_pow_left
            norm_num [bigBase]
        _ ≤ 1000000000 ^ (4 * a.value.length + 4 - a.value.length) := by
            apply Nat.pow_le_pow_right (by norm_num)
            omega)
    (by omega)
  rw [hcur] at r5
  rw [putDec, if_neg hnotzero]
  simp only [r1, List.nil_append]
  rw [List.getLast!_of_getLast? (List.getLast?_concat body), List.dropLast_concat]
  rw [print_body_spec body g r2 r3 r4, r5]

theorem digit_char_roundtrip (c : Char) (h : c.isDigit) :
    Char.ofNat ('0'.toNat + (c.toNat - '0'.toNat)) = c := by
  obtain ⟨h1, h2⟩ := digit_char_toNat_bounds c h
  have h0 : '0'.toNat = 48 := rfl
  have : '0'.toNat + (c.toNat - '0'.toNat) = c.toNat := by omega
  rw [this, Char.ofNat_toNat]

/-- Inverse relation between Nat.digits and Nat.ofDigits for base-10 digit
lists with no most-significant zero, phrased through getLast?. -/
theorem digits_ofDigits_ten (l : List ℕ) (hlt : ∀ x ∈ l, x < 10)
    (hl : l.getLast? ≠ some 0) : Nat.digits 10 (Nat.ofDigits 10 l) = l := by
  rcases eq_or_ne l [] with hnil | hne
  · subst hnil; simp [Nat.ofDigits]
  · refine Nat.digits_ofDigits 10 (by norm_num) l hlt ?_
    intro h habs
    apply hl
    rw [List.getLast?_eq_getLast _ h, habs]

theorem natChars_of_digit_chars (s : List Char) (hne : s ≠ [])
    (hdig : ∀ c ∈ s, c.isDigit) (hh : ∀ c, s.head? = some c → c ≠ '0') :
    natChars (digitsVal ((s.map fun c => c.toNat - '0'.toNat)).reverse) = s := by
  have hlt : ∀ v ∈ (s.map fun c => c.toNat - '0'.toNat).reverse, v < 10 := by
    intro v hv
    rw [List.mem_reverse] at hv
    simp only [List.mem_map] at hv
    obtain ⟨x, hx, hvx⟩ := hv
    subst hvx
    exact digit_char_val_lt x (hdig x hx)
  have hlast : ((s.map fun c => c.toNat - '0'.toNat)).reverse.getLast? ≠ some 0 := by
    intro hq
    rw [List.getLast?_reverse] at hq
    rcases s with _ | ⟨c, cs⟩
    · exact absurd rfl hne
    · simp only [List.map_cons, List.head?_cons, Option.some.injEq] at hq
      have hc := hh c (by simp)
      have hcd := hdig c (by simp)
      obtain ⟨h1, h2⟩ := digit_char_toNat_bounds c hcd
      have h48 : c.toNat ≠ 48 := fun habs2 => hc (char_eq_of_toNat_eq c '0' habs2)
      have h0 : '0'.toNat = 48 := rfl
      omega
  rw [natChars, digitsVal, digits_ofDigits_ten _ hlt hlast]
  rw [List.reverse_reverse, List.map_map]
  have hcomp : ∀ c ∈ s,
      ((fun d => Char.ofNat ('0'.toNat + d)) ∘ fun c => c.toNat - '0'.toNat) c = id c := by
    intro c hc
    simp only [Function.comp_apply, id_eq]
    exact digit_char_roundtrip c (hdig c hc)
  rw [List.map_congr_left hcomp, List.map_id]

theorem digit_not_ws (c : Char) (h : c.isDigit) : wsChar c = false := by
  obtain ⟨h1, h2⟩ := digit_char_toNat_bounds c h
  have k : ∀ d : Char, c.toNat ≠ d.toNat → decide (c = d) = false := by
    intro d hd
    simp only [decide_eq_false_iff_not]
    intro he
    exact hd (by rw [he])
  have e1 : ' '.toNat = 32 := rfl
  have e2 : '\t'.toNat = 9 := rfl
  have e3 : '\n'.toNat = 10 := rfl
  have e4 : '\x0b'.toNat = 11 := rfl
  have e5 : '\x0c'.toNat = 12 := rfl
  have e6 : '\r'.toNat = 13 := rfl
  simp only [wsChar, k ' ' (by omega), k '\t' (by omega), k '\n' (by omega),
    k '\x0b' (by omega), k '\x0c' (by omega), k '\r' (by omega),
    Bool.or_false, Bool.false_or]

theorem opInsert_getDec (b : BigInteger) (inp : List Char) (p : ℕ) (ds : List Char)
    (hdrop : inp.drop p = ds) (hne : ds ≠ []) (hdig : ∀ c ∈ ds, c.isDigit) :
    opInsert (getDec b ⟨inp, p, false⟩).1 =
      canonicalForm (if b.negative then ['-'] else []) ds := by
  rcases hstr : ds.dropWhile (fun c => c = '0') with _ | ⟨c, cs⟩
  · have hzeros : ds.takeWhile (fun c => c = '0') = ds := by
      conv_rhs => rw [← List.takeWhile_append_dropWhile (p := fun c => c = '0') (l := ds)]
      rw [hstr, List.append_nil]
    have hz : ∀ x ∈ ds, x = '0' := by
      intro x hx
      rw [← hzeros] at hx
      have hp := List.mem_takeWhile_imp hx
      exact of_decide_eq_true hp
    have hgd := getDec_spec_zero b inp p false ds []
      (by rw [hdrop, List.append_nil]) hne hz (by intro x hx; simp at hx)
    rw [hgd]
    have hcf : canonicalForm (if b.negative then ['-'] else []) ds = ['0'] := by
      simp [canonicalForm, hstr]
    rw [hcf]
    simp [opInsert, putDec]
  · have hc0 : c ≠ '0' := by
      have hh := List.head?_dropWhile_not (fun x => decide (x = '0')) ds
      rw [hstr] at hh
      simp only [List.head?_cons, Option.some.injEq, forall_eq, decide_eq_false_iff_not] at hh
      exact hh
    have hdigs : ∀ x ∈ c :: cs, x.isDigit := by
      intro x hx
      exact hdig x ((List.dropWhile_sublist _).subset (hstr ▸ hx))
    have hdrop2 : inp.drop p = (ds.takeWhile (fun x => x = '0') ++ (c :: cs)) ++ [] := by
      rw [List.append_nil, ← hstr, List.takeWhile_append_dropWhile, hdrop]
    have hz : ∀ x ∈ ds.takeWhile (fun x => x = '0'), x = '0' := by
      intro x hx
      have hp := List.mem_takeWhile_imp hx
      exact of_decide_eq_true hp
    obtain ⟨limbs, heq, hlne, hlb, hval, hlow⟩ :=
      getDec_spec_pos b inp p false (ds.takeWhile (fun x => x = '0')) (c :: cs) [] c cs
        rfl hdrop2 hz hdigs hc0 (by intro x hx; simp at hx)
    rw [heq]
    have hput : putDec { b with value := limbs } = natChars (limbsVal limbs) :=
      putDec_spec { b with value := limbs } hlne hlb hlow
    have hchars : natChars (limbsVal limbs) = c :: cs := by
      rw [hval]
      exact natChars_of_digit_chars (c :: cs) (by simp) hdigs
        (by intro x hx; simp only [List.head?_cons, Option.some.injEq] at hx; exact hx ▸ hc0)
    have hcf : canonicalForm (if b.negative then ['-'] else []) ds =
        (if b.negative then ['-'] else []) ++ (c :: cs) := by
      cases b.negative <;> simp [canonicalForm, hstr]
    rw [hcf]
    simp only [opInsert, hput, hchars]

/-- C2: extracting a supported decimal string — an optional `+` or `-` sign
followed by one or more ASCII digits — with operator>> and inserting the
result with operator<< prints its canonical form: leading zeros dropped, a
`-` only on negative nonzero values, and exactly `0` for the value zero. -/
theorem C2_decimal_round_trip (a : BigInteger) (sgn ds : List Char)
    (hs : sgn = [] ∨ sgn = ['+'] ∨ sgn = ['-'])
    (hne : ds ≠ []) (hdig : ∀ c ∈ ds, c.isDigit) :
    opInsert (opExtract a ⟨sgn ++ ds, 0, false⟩).1 = canonicalForm sgn ds := by
  rcases hs with h | h | h <;> subst h
  · rcases ds with _ | ⟨d, rest⟩
    · exact absurd rfl hne
    · have hd : d.isDigit := hdig d (by simp)
      have hws : wsChar d = false := digit_not_ws d hd
      have hsgn : ¬ (d = '-' ∨ d = '+') := by
        obtain ⟨h1, h2⟩ := digit_char_toNat_bounds d hd
        rintro (he | he) <;> subst he <;> revert h1 <;> decide
      have hex : extractChar ⟨d :: rest, 0, false⟩ = (some d, ⟨d :: rest, 1, false⟩) := by
        simp [extractChar, List.takeWhile_cons, hws]
      simp only [List.nil_append, opExtract, hex]
      rw [if_neg hsgn]
      have := opInsert_getDec { a with negative := false } (d :: rest) 0 (d :: rest)
        rfl (by simp) hdig
      simpa using this
  · have hws : wsChar '+' = false := by decide
    have hex : extractChar ⟨'+' :: ds, 0, false⟩ = (some '+', ⟨'+' :: ds, 1, false⟩) := by
      simp [extractChar, List.takeWhile_cons, hws]
    have hlen : (1 : ℕ) < ('+' :: ds).length := by
      have hl : 0 < ds.length := List.length_pos.mpr hne
      simp only [List.length_cons]
      omega
    simp only [List.cons_append, List.nil_append, opExtract, hex]
    rw [if_pos (Or.inr trivial), if_pos hlen]
    have hd : decide (('+' : Char) = '-') = false := by decide
    rw [hd]
    have hgd := opInsert_getDec { a with negative := false } ('+' :: ds) 1 ds rfl hne hdig
    simp only [Bool.if_false_left] at hgd
    rw [hgd]
    simp [canonicalForm]
  · have hws : wsChar '-' = false := by decide
    have hex : extractChar ⟨'-' :: ds, 0, false⟩ = (some '-', ⟨'-' :: ds, 1, false⟩) := by
      simp [extractChar, List.takeWhile_cons, hws]
    have hlen : (1 : ℕ) < ('-' :: ds).length := by
      have hl : 0 < ds.length := List.length_pos.mpr hne
      simp only [List.length_cons]
      omega
    simp only [List.cons_append, List.nil_append, opExtract, hex]
    rw [if_pos (Or.inl trivial), if_pos hlen]
    simp only [decide_True]
    have hgd := opInsert_getDec { a with negative := true } ('-' :: ds) 1 ds rfl hne hdig
    simp only [if_true] at hgd
    exact hgd

/-- Witness for C2 at the concrete input `-00123`. -/
theorem C2_decimal_round_trip_witness :
    (['-'] = ([] : List Char) ∨ ['-'] = ['+'] ∨ ['-'] = ['-']) ∧
    (∀ c ∈ (['0', '0', '1', '2', '3'] : List Char), c.isDigit) ∧
    opInsert (opExtract ⟨[0], false⟩ ⟨['-'] ++ ['0', '0', '1', '2', '3'], 0, false⟩).1 =
      canonicalForm ['-'] ['0', '0', '1', '2', '3'] :=
  ⟨Or.inr (Or.inr rfl), by decide,
    C2_decimal_round_trip ⟨[0], false⟩ ['-'] ['0', '0', '1', '2', '3']
      (Or.inr (Or.inr rfl)) (by decide) (by decide)⟩

theorem bitrev_lt (m i : ℕ) : bitrev m i < 2 ^ m := by
  induction m generalizing i with
  | zero => simp [bitrev]
  | succ m ih =>
      have h1 := ih (i / 2)
      have h2 : i % 2 < 2 := Nat.mod_lt _ (by norm_num)
      have h3 : 2 ^ (m + 1) = 2 ^ m + 2 ^ m := by rw [pow_succ]; omega
      simp only [bitrev]
      nlinarith [h1, h2]

theorem bitrev_zero (m : ℕ) : bitrev m 0 = 0 := by
  induction m with
  | zero => rfl
  | succ m ih => simp [bitrev, ih]

theorem bitrev_high (m : ℕ) : ∀ i, i < 2 ^ (m + 1) →
    bitrev (m + 1) i = 2 * bitrev m (i % 2 ^ m) + i / 2 ^ m := by
  induction m with
  | zero =>
      intro i hi
      interval_cases i <;> rfl
  | succ m ih =>
      intro i hi
      have hhalf : i / 2 < 2 ^ (m + 1) := by
        have : 2 ^ (m + 1 + 1) = 2 ^ (m + 1) * 2 := by rw [pow_succ]
        omega
      have hih := ih (i / 2) hhalf
      have e1 : (i % 2 ^ (m + 1)) % 2 = i % 2 :=
        Nat.mod_mod_of_dvd i (dvd_pow_self 2 (Nat.succ_ne_zero m))
      have e2 : i % 2 ^ (m + 1) / 2 = i / 2 % 2 ^ m := by
        rw [Nat.div_mod_eq_mod_mul_div, mul_comm, ← pow_succ]
      have e3 : i / 2 / 2 ^ m = i / 2 ^ (m + 1) := by
        rw [Nat.div_div_eq_div_mul, ← pow_succ']
      show i % 2 * 2 ^ (m + 1) + bitrev (m + 1) (i / 2) =
        2 * bitrev (m + 1) (i % 2 ^ (m + 1)) + i / 2 ^ (m + 1)
      rw [hih]
      show _ = 2 * ((i % 2 ^ (m + 1)) % 2 * 2 ^ m + bitrev m (i % 2 ^ (m + 1) / 2)) + _
      rw [e1, e2, e3]
      have : 2 ^ (m + 1) = 2 * 2 ^ m := by rw [pow_succ]; ring
      rw [this]
      ring

theorem bitrev_bitrev (m : ℕ) : ∀ i, i < 2 ^ m → bitrev m (bitrev m i) = i := by
  induction m with
  | zero =>
      intro i hi
      interval_cases i
      rfl
  | succ m ih =>
      intro i hi
      have hb : bitrev m (i / 2) < 2 ^ m := bitrev_lt m (i / 2)
      have hlt : bitrev (m + 1) i < 2 ^ (m + 1) := bitrev_lt (m + 1) i
      rw [bitrev_high m _ hlt]
      show 2 * bitrev m ((i % 2 * 2 ^ m + bitrev m (i / 2)) % 2 ^ m) +
        (i % 2 * 2 ^ m + bitrev m (i / 2)) / 2 ^ m = i
      have e1 : (i % 2 * 2 ^ m + bitrev m (i / 2)) % 2 ^ m = bitrev m (i / 2) := by
        rw [mul_comm, Nat.mul_add_mod, Nat.mod_eq_of_lt hb]
      have e2 : (i % 2 * 2 ^ m + bitrev m (i / 2)) / 2 ^ m = i % 2 := by
        rw [mul_comm, Nat.mul_add_div (pow_pos (by norm_num) m), Nat.div_eq_of_lt hb, add_zero]
      rw [e1, e2, ih (i / 2) (by omega)]
      omega

theorem xor_pow_of_lt (a m : ℕ) (h : a < 2 ^ m) : a ^^^ 2 ^ m = a + 2 ^ m := by
  have hor : a ^^^ 2 ^ m = 2 ^ m ||| a := by
    apply Nat.eq_of_testBit_eq
    intro i
    rw [Nat.testBit_xor, Nat.testBit_lor]
    rcases eq_or_ne i m with he | hne
    · subst he
      rw [Nat.testBit_lt_two_pow h, Nat.testBit_two_pow_self]
      decide
    · rw [Nat.testBit_two_pow_of_ne hne.symm]
      cases a.testBit i <;> decide
  have hadd := mul_pow_lor_eq_add m 1 a h
  rw [one_mul] at hadd
  rw [hor, hadd]
  omega

theorem add_pow_xor (a m : ℕ) (h : a < 2 ^ m) : (a + 2 ^ m) ^^^ 2 ^ m = a := by
  rw [← xor_pow_of_lt a m h, Nat.xor_assoc, Nat.xor_self, Nat.xor_zero]

theorem revStepLoop_spec (m : ℕ) : ∀ fuel i, m + 2 ≤ fuel → i < 2 ^ m →
    revStepLoop fuel (bitrev m i) (2 ^ m) = bitrev m ((i + 1) % 2 ^ m) := by
  induction m with
  | zero =>
      intro fuel i hf hi
      interval_cases i
      match fuel, hf with
      | f + 2, _ =>
          show revStepLoop (f + 2) (bitrev 0 0) (2 ^ 0) = bitrev 0 (1 % 2 ^ 0)
          simp [bitrev, revStepLoop]
  | succ m ih =>
      intro fuel i hf hi
      match fuel, hf with
      | f + 1, hf =>
      have hjlt : bitrev (m + 1) i < 2 ^ (m + 1) := bitrev_lt _ _
      have hb : bitrev m (i / 2) < 2 ^ m := bitrev_lt _ _
      have hhalf : 2 ^ (m + 1) / 2 = 2 ^ m := by rw [pow_succ]; omega
      have hps : 2 ^ (m + 1) = 2 * 2 ^ m := by rw [pow_succ]; ring
      simp only [revStepLoop, hjlt, if_true, hhalf]
      rcases Nat.even_or_odd i with he | ho
      · have he2 : i % 2 = 0 := Nat.even_iff.mp he
        have hj : bitrev (m + 1) i = bitrev m (i / 2) := by
          show i % 2 * 2 ^ m + bitrev m (i / 2) = _
          rw [he2]
          ring
        rw [hj, xor_pow_of_lt _ _ hb]
        match f, hf with
        | f1 + 1, _ =>
        have hnot : ¬ bitrev m (i / 2) + 2 ^ m < 2 ^ m := by omega
        simp only [revStepLoop, hnot, if_false]
        have hi1 : i + 1 < 2 ^ (m + 1) := by omega
        rw [Nat.mod_eq_of_lt hi1]
        show _ = (i + 1) % 2 * 2 ^ m + bitrev m ((i + 1) / 2)
        have e1 : (i + 1) % 2 = 1 := by omega
        have e2 : (i + 1) / 2 = i / 2 := by omega
        rw [e1, e2]
        ring
      · have ho2 : i % 2 = 1 := Nat.odd_iff.mp ho
        have hj : bitrev (m + 1) i = bitrev m (i / 2) + 2 ^ m := by
          show i % 2 * 2 ^ m + bitrev m (i / 2) = _
          rw [ho2]
          ring
        rw [hj, add_pow_xor _ _ hb]
        rw [ih f (i / 2) (by omega) (by omega)]
        rcases eq_or_lt_of_le (show i + 1 ≤ 2 ^ (m + 1) by omega) with hend | hmid
        · have e0 : (i + 1) % 2 ^ (m + 1) = 0 := by rw [hend]; exact Nat.mod_self _
          have e1 : (i / 2 + 1) % 2 ^ m = 0 := by
            have : i / 2 + 1 = 2 ^ m := by omega
            rw [this]
            exact Nat.mod_self _
          rw [e0, e1, bitrev_zero, bitrev_zero]
        · rw [Nat.mod_eq_of_lt hmid]
          have e1 : (i / 2 + 1) % 2 ^ m = i / 2 + 1 := Nat.mod_eq_of_lt (by omega)
          rw [e1]
          show _ = (i + 1) % 2 * 2 ^ m + bitrev m ((i + 1) / 2)
          have e2 : (i + 1) % 2 = 0 := by omega
          have e3 : (i + 1) / 2 = i / 2 + 1 := by omega
          rw [e2, e3]
          ring

theorem revStep_spec (m i : ℕ) (hm : m ≤ 62) (hi : i < 2 ^ m) :
    revStep (bitrev m i) (2 ^ m) = bitrev m ((i + 1) % 2 ^ m) :=
  revStepLoop_spec m 64 i (by omega) hi

theorem getD_set_self (l : List ℕ) (i x : ℕ) (h : i < l.length) :
    (l.set i x).getD i 0 = x := by
  rw [List.getD_eq_getElem?_getD, List.getElem?_set, if_pos rfl, if_pos h]
  rfl

theorem getD_set_ne (l : List ℕ) (i j x : ℕ) (h : i ≠ j) :
    (l.set i x).getD j 0 = l.getD j 0 := by
  rw [List.getD_eq_getElem?_getD, List.getElem?_set, if_neg h, ← List.getD_eq_getElem?_getD]

theorem bitrevSweep_eq_fold (n : ℕ) (v : List ℕ) :
    bitrevSweep n v = ((List.range n).foldl (sweepGo n) (v, 0)).1 := rfl

theorem sweepGo_fst (n : ℕ) (s : List ℕ × ℕ) (i : ℕ) :
    (sweepGo n s i).1 =
      if s.2 < i then (s.1.set i (s.1.getD s.2 0)).set s.2 (s.1.getD i 0) else s.1 := rfl

theorem sweepGo_snd (n : ℕ) (s : List ℕ × ℕ) (i : ℕ) :
    (sweepGo n s i).2 = revStep s.2 n := rfl

theorem bitrevSweep_spec (m : ℕ) (hm : m ≤ 62) (v : List ℕ) (hlen : v.length = 2 ^ m) :
    (bitrevSweep (2 ^ m) v).length = 2 ^ m ∧
    ∀ t, (bitrevSweep (2 ^ m) v).getD t 0 =
      if t < 2 ^ m then v.getD (bitrev m t) 0 else v.getD t 0 := by
  have main : ∀ i, i ≤ 2 ^ m →
      ((List.range i).foldl (sweepGo (2 ^ m)) (v, 0)).1.length = 2 ^ m ∧
      ((List.range i).foldl (sweepGo (2 ^ m)) (v, 0)).2 = bitrev m (i % 2 ^ m) ∧
      ∀ t, ((List.range i).foldl (sweepGo (2 ^ m)) (v, 0)).1.getD t 0 =
        (if t < 2 ^ m ∧ t < i ∧ bitrev m t < i then v.getD (bitrev m t) 0
         else v.getD t 0) := by
    intro i
    induction i with
    | zero =>
        intro _
        refine ⟨hlen, by simp [bitrev_zero], ?_⟩
        intro t
        simp
    | succ i ih =>
        intro hi1
        obtain ⟨hL, hJ, hP⟩ := ih (by omega)
        have hilt : i < 2 ^ m := by omega
        rw [Nat.mod_eq_of_lt hilt] at hJ
        rw [List.range_succ, List.foldl_append, List.foldl_cons, List.foldl_nil]
        rcases hS : (List.range i).foldl (sweepGo (2 ^ m)) (v, 0) with ⟨A, j⟩
        rw [hS] at hL hJ hP
        have hL2 : A.length = 2 ^ m := hL
        have hj : j = bitrev m i := hJ
        have hP2 : ∀ t, A.getD t 0 =
            (if t < 2 ^ m ∧ t < i ∧ bitrev m t < i then v.getD (bitrev m t) 0
             else v.getD t 0) := hP
        clear hL hJ hP hS
        subst hj
        rw [sweepGo_fst, sweepGo_snd]
        simp only
        refine ⟨?_, ?_, ?_⟩
        · by_cases hsw : bitrev m i < i <;> simp [hsw, hL2]
        · rw [revStep_spec m i hm hilt]
        · intro t
          have hinv : bitrev m (bitrev m i) = i := bitrev_bitrev m i hilt
          by_cases hsw : bitrev m i < i
          · simp only [hsw, if_true]
            have hblt : bitrev m i < 2 ^ m := bitrev_lt m i
            have hslen : (A.set i (A.getD (bitrev m i) 0)).length = 2 ^ m := by
              rw [List.length_set, hL2]
            by_cases hti : t = i
            · subst hti
              have hne : bitrev m t ≠ t := by omega
              rw [getD_set_ne _ _ _ _ hne, getD_set_self _ _ _ (by omega)]
              rw [hP2 (bitrev m t), if_neg (by rw [hinv]; omega)]
              rw [if_pos ⟨hilt, by omega, by omega⟩]
            · by_cases htj : t = bitrev m i
              · subst htj
                rw [getD_set_self _ _ _ (by rw [hslen]; omega)]
                rw [hP2 i, if_neg (by omega)]
                rw [if_pos ⟨by omega, by omega, by rw [hinv]; omega⟩, hinv]
              · rw [getD_set_ne _ _ _ _ (Ne.symm htj), getD_set_ne _ _ _ _ (Ne.symm hti)]
                rw [hP2 t]
                by_cases htn : t < 2 ^ m
                · have hrt : bitrev m t ≠ i := by
                    intro habs
                    exact htj (by rw [← habs, bitrev_bitrev m t htn])
                  by_cases hold : t < i ∧ bitrev m t < i
                  · rw [if_pos ⟨htn, hold.1, hold.2⟩, if_pos ⟨htn, by omega, by omega⟩]
                  · rw [if_neg (by tauto), if_neg ?_]
                    rintro ⟨-, h2, h3⟩
                    have ht1 : t < i := by omega
                    have ht2 : bitrev m t < i := by omega
                    exact hold ⟨ht1, ht2⟩
                · rw [if_neg (by tauto), if_neg (by tauto)]
          · simp only [hsw, if_false]
            rw [hP2 t]
            by_cases htn : t < 2 ^ m
            · by_cases hti : t = i
              · subst hti
                by_cases hfix : bitrev m t = t
                · rw [if_neg (by omega), if_pos ⟨htn, by omega, by omega⟩, hfix]
                · rw [if_neg (by omega), if_neg ?_]
                  rintro ⟨-, -, h3⟩
                  omega
              · by_cases hrev : bitrev m t = i
                · have ht2 : t = bitrev m i := by rw [← hrev, bitrev_bitrev m t htn]
                  have htgt : i < t := by omega
                  rw [if_neg (by omega), if_neg (by omega)]
                · by_cases hold : t < i ∧ bitrev m t < i
                  · rw [if_pos ⟨htn, hold.1, hold.2⟩, if_pos ⟨htn, by omega, by omega⟩]
                  · rw [if_neg (by tauto), if_neg ?_]
                    rintro ⟨-, h2, h3⟩
                    exact hold ⟨by omega, by omega⟩
            · rw [if_neg (by tauto), if_neg (by tauto)]
  obtain ⟨hL, hJ, hP⟩ := main (2 ^ m) le_rfl
  rw [bitrevSweep_eq_fold]
  refine ⟨hL, ?_⟩
  intro t
  rw [hP t]
  by_cases htn : t < 2 ^ m
  · rw [if_pos ⟨htn, htn, bitrev_lt m t⟩, if_pos htn]
  · rw [if_neg (by tauto), if_neg htn]

theorem getD_map (l : List ℕ) (f : ℕ → ℕ) (k : ℕ) (h : k < l.length) :
    (l.map f).getD k 0 = f (l.getD k 0) := by
  simp [List.getD_eq_getElem?_getD, List.getElem?_map, List.getElem?_eq_getElem, h]

theorem getD_range (n k : ℕ) (h : k < n) : (List.range n).getD k 0 = k := by
  rw [List.getD_eq_getElem?_getD, List.getElem?_range h]
  rfl

theorem getD_reverse (l : List ℕ) (i : ℕ) (h : i < l.length) :
    l.reverse.getD i 0 = l.getD (l.length - 1 - i) 0 := by
  rw [List.getD_eq_getElem?_getD, List.getD_eq_getElem?_getD]
  rw [List.getElem?_eq_getElem (by simpa using h), List.getElem?_eq_getElem (by omega)]
  simp [List.getElem_reverse]

theorem modpowLoop_spec : ∀ fuel b e retn, e < 2 ^ fuel → b < bigMod → retn < bigMod →
    modpowLoop fuel b e retn = retn * b ^ e % bigMod := by
  intro fuel
  induction fuel with
  | zero =>
      intro b e retn he hb hr
      have he0 : e = 0 := by omega
      subst he0
      simp [modpowLoop, Nat.mod_eq_of_lt hr]
  | succ fuel ih =>
      intro b e retn he hb hr
      have hp : 0 < bigMod := by norm_num [bigMod]
      by_cases he0 : e = 0
      · subst he0
        simp [modpowLoop, Nat.mod_eq_of_lt hr]
      · by_cases he1 : e = 1
        · subst he1
          simp [modpowLoop]
        · have h2 : ¬ e / 2 = 0 := by omega
          have hstep : modpowLoop (fuel + 1) b e retn =
              modpowLoop fuel (b * b % bigMod) (e / 2)
                (if e % 2 = 1 then retn * b % bigMod else retn) := by
            simp only [modpowLoop, if_pos he1, if_neg h2]
          rw [hstep]
          have hr1 : (if e % 2 = 1 then retn * b % bigMod else retn) < bigMod := by
            by_cases hpar : e % 2 = 1 <;> simp [hpar, Nat.mod_lt _ hp, hr]
          rw [ih (b * b % bigMod) (e / 2) _ (by omega) (Nat.mod_lt _ hp) hr1]
          have c1 : (b * b % bigMod) ^ (e / 2) ≡ (b * b) ^ (e / 2) [MOD bigMod] :=
            (Nat.mod_modEq _ _).pow _
          have c2 : (if e % 2 = 1 then retn * b % bigMod else retn) ≡
              retn * b ^ (e % 2) [MOD bigMod] := by
            by_cases hpar : e % 2 = 1
            · rw [if_pos hpar, hpar, pow_one]
              exact Nat.mod_modEq _ _
            · have : e % 2 = 0 := by omega
              rw [if_neg hpar, this, pow_zero, mul_one]
          have hsplit : (b * b) ^ (e / 2) = b ^ (2 * (e / 2)) := by
            rw [two_mul, pow_add, ← mul_pow]
          have hexp : e % 2 + 2 * (e / 2) = e := by omega
          calc (if e % 2 = 1 then retn * b % bigMod else retn) *
                (b * b % bigMod) ^ (e / 2) % bigMod
              = retn * b ^ (e % 2) * b ^ (2 * (e / 2)) % bigMod := by
                have := c2.mul (c1.trans (by rw [hsplit]))
                exact this
            _ = retn * b ^ e % bigMod := by
                rw [mul_assoc, ← pow_add, hexp]

theorem modpow_spec (b e : ℕ) (hb : b < bigMod) (he : e < 2 ^ 64) :
    modpow b e = b ^ e % bigMod := by
  rw [modpow, modpowLoop_spec 64 b e 1 he hb (by norm_num [bigMod]), one_mul]

theorem rootPow_spec (g : ℕ) (hg : g < bigMod) : ∀ i, rootPow g i = g ^ i % bigMod := by
  intro i
  induction i with
  | zero => simp [rootPow, Nat.mod_eq_of_lt, bigMod]
  | succ i ih =>
      show rootPow g i * g % bigMod = _
      rw [ih]
      have : g ^ i % bigMod * g ≡ g ^ i * g [MOD bigMod] :=
        (Nat.mod_modEq _ _).mul_right g
      calc g ^ i % bigMod * g % bigMod = g ^ i * g % bigMod := this
        _ = g ^ (i + 1) % bigMod := by rw [pow_succ]

theorem rootPow_lt (g : ℕ) (i : ℕ) (hg : g < bigMod) : rootPow g i < bigMod := by
  rw [rootPow_spec g hg i]
  exact Nat.mod_lt _ (by norm_num [bigMod])

theorem bigMod_shift (k : ℕ) (h1 : 1 ≤ k) (h2 : k ≤ 30) :
    bigMod >>> k = 3 * 2 ^ (30 - k) := by
  rw [Nat.shiftRight_eq_div_pow]
  have he : bigMod = 3 * 2 ^ (30 - k) * 2 ^ k + 1 := by
    rw [mul_assoc, ← pow_add]
    have : 30 - k + k = 30 := by omega
    rw [this]
    rfl
  rw [he, mul_comm (3 * 2 ^ (30 - k)) (2 ^ k)]
  rw [Nat.mul_add_div (pow_pos (by norm_num) k)]
  have : 1 / 2 ^ k = 0 := Nat.div_eq_of_lt (Nat.one_lt_two_pow_iff.mpr (by omega))
  rw [this, add_zero]

theorem five_half_pow : modpow 5 ((bigMod - 1) / 2) = bigMod - 1 := by decide

theorem modinv_pow2 : ∀ k < 30,
    modinvU (2 ^ (k + 1) : ℤ) (bigMod : ℤ) * 2 ^ (k + 1) % bigMod = 1 := by decide

theorem zpow_cycle (z : ZMod bigMod) (n : ℕ) (h1 : z ^ n = 1) (a : ℕ) :
    z ^ a = z ^ (a % n) := by
  conv_lhs => rw [← Nat.div_add_mod a n]
  rw [pow_add, pow_mul, h1, one_pow, one_mul]

theorem butterflyPair_eq (w : List ℕ) (bigI i j k : ℕ) (v : List ℕ) :
    butterflyPair w bigI i j k v =
      (v.set (i + j + k)
          (bflySub (v.getD (j + k) 0)
            (v.getD (i + j + k) 0 * w.getD (bigI * k) 0 % bigMod))).set (j + k)
        (bflyAdd (v.getD (j + k) 0)
          (v.getD (i + j + k) 0 * w.getD (bigI * k) 0 % bigMod)) := rfl

theorem bflyAdd_lt (a z : ℕ) (ha : a < bigMod) (hz : z < bigMod) :
    bflyAdd a z < bigMod := by
  rw [bflyAdd]
  split <;> omega

theorem bflySub_lt (a z : ℕ) (ha : a < bigMod) (hz : z < bigMod) :
    bflySub a z < bigMod := by
  rw [bflySub]
  split <;> omega

theorem cast_bflyAdd (a z : ℕ) (ha : a < bigMod) (hz : z < bigMod) :
    ((bflyAdd a z : ℕ) : ZMod bigMod) = (a : ZMod bigMod) + (z : ZMod bigMod) := by
  rw [bflyAdd]
  split
  · push_cast
    ring
  · have h1 : bigMod ≤ a + z := by omega
    have : ((a + z - bigMod : ℕ) : ZMod bigMod) =
        ((a + z : ℕ) : ZMod bigMod) - ((bigMod : ℕ) : ZMod bigMod) := by
      rw [← Nat.cast_sub h1]
    rw [this, ZMod.natCast_self, sub_zero]
    push_cast
    ring

theorem cast_bflySub (a z : ℕ) (ha : a < bigMod) (hz : z < bigMod) :
    ((bflySub a z : ℕ) : ZMod bigMod) = (a : ZMod bigMod) - (z : ZMod bigMod) := by
  rw [bflySub]
  split
  · have h1 : z ≤ a + bigMod := by omega
    rw [Nat.cast_sub h1, Nat.cast_add, ZMod.natCast_self]
    ring
  · have h1 : z ≤ a := by omega
    rw [Nat.cast_sub h1]

theorem cast_mulmod (a b : ℕ) :
    ((a * b % bigMod : ℕ) : ZMod bigMod) = (a : ZMod bigMod) * (b : ZMod bigMod) := by
  rw [ZMod.natCast_mod, Nat.cast_mul]

theorem sum_range_even_odd {M : Type} [AddCommMonoid M] (f : ℕ → M) (L : ℕ) :
    ∑ u ∈ Finset.range (2 * L), f u =
      (∑ u ∈ Finset.range L, f (2 * u)) + ∑ u ∈ Finset.range L, f (2 * u + 1) := by
  induction L with
  | zero => simp
  | succ L ih =>
      have h2 : 2 * (L + 1) = 2 * L + 1 + 1 := by ring
      rw [h2, Finset.sum_range_succ, Finset.sum_range_succ, ih,
        Finset.sum_range_succ, Finset.sum_range_succ]
      abel

theorem entries_lt (v : List ℕ) (h : ∀ x ∈ v, x < bigMod) (t : ℕ) :
    v.getD t 0 < bigMod := by
  by_cases ht : t < v.length
  · rw [List.getD_eq_getElem?_getD, List.getElem?_eq_getElem ht]
    exact h _ (List.getElem_mem ht)
  · rw [List.getD_eq_getElem?_getD, List.getElem?_eq_none (by omega)]
    norm_num [bigMod]

theorem bfly_inner_spec (w : List ℕ) (bigI L j0 : ℕ) (hL : 0 < L) (v : List ℕ)
    (hlen : j0 + 2 * L ≤ v.length) :
    ∀ K, K ≤ L →
      ((List.range K).foldl (fun v k => butterflyPair w bigI L j0 k v) v).length =
          v.length ∧
      (∀ k, k < K →
        ((List.range K).foldl (fun v k => butterflyPair w bigI L j0 k v) v).getD
            (j0 + k) 0 =
          bflyAdd (v.getD (j0 + k) 0)
            (v.getD (L + j0 + k) 0 * w.getD (bigI * k) 0 % bigMod) ∧
        ((List.range K).foldl (fun v k => butterflyPair w bigI L j0 k v) v).getD
            (L + j0 + k) 0 =
          bflySub (v.getD (j0 + k) 0)
            (v.getD (L + j0 + k) 0 * w.getD (bigI * k) 0 % bigMod)) ∧
      (∀ t, t < j0 ∨ (j0 + K ≤ t ∧ t < j0 + L) ∨ L + j0 + K ≤ t →
        ((List.range K).foldl (fun v k => butterflyPair w bigI L j0 k v) v).getD t 0 =
          v.getD t 0) := by
  intro K
  induction K with
  | zero =>
      intro _
      refine ⟨rfl, ?_, ?_⟩
      · intro k hk
        omega
      · intro t ht
        rfl
  | succ K ih =>
      intro hK1
      obtain ⟨hL1, hF, hU⟩ := ih (by omega)
      rw [List.range_succ, List.foldl_append, List.foldl_cons, List.foldl_nil]
      rcases hR : (List.range K).foldl (fun v k => butterflyPair w bigI L j0 k v) v
        with _ | _
      all_goals rw [← hR]
      all_goals rw [butterflyPair_eq]
      all_goals set R := (List.range K).foldl (fun v k => butterflyPair w bigI L j0 k v) v
        with hRdef
      all_goals clear hR
      all_goals {
      have ha : R.getD (j0 + K) 0 = v.getD (j0 + K) 0 := hU _ (by omega)
      have hz : R.getD (L + j0 + K) 0 = v.getD (L + j0 + K) 0 := hU _ (by omega)
      have hsetlen : (R.set (L + j0 + K)
          (bflySub (R.getD (j0 + K) 0)
            (R.getD (L + j0 + K) 0 * w.getD (bigI * K) 0 % bigMod))).length = v.length := by
        rw [List.length_set, hL1]
      refine ⟨?_, ?_, ?_⟩
      · rw [List.length_set, hsetlen]
      · intro k hk
        by_cases hkK : k = K
        · subst hkK
          constructor
          · rw [getD_set_self _ _ _ (by omega), ha, hz]
          · rw [getD_set_ne _ _ _ _ (by omega),
              getD_set_self _ _ _ (by rw [hL1]; omega), ha, hz]
        · have hk2 : k < K := by omega
          obtain ⟨hFa, hFs⟩ := hF k hk2
          constructor
          · rw [getD_set_ne _ _ _ _ (by omega), getD_set_ne _ _ _ _ (by omega), hFa]
          · rw [getD_set_ne _ _ _ _ (by omega), getD_set_ne _ _ _ _ (by omega), hFs]
      · intro t ht
        rw [getD_set_ne _ _ _ _ (by omega), getD_set_ne _ _ _ _ (by omega)]
        exact hU t (by omega)
      }

theorem bfly_stage_spec (w : List ℕ) (bigI L nB : ℕ) (hL : 0 < L) (v : List ℕ)
    (hlen : v.length = nB * (2 * L)) :
    ∀ B, B ≤ nB →
      ((List.range B).foldl
        (fun v b => (List.range L).foldl
          (fun v k => butterflyPair w bigI L (b * (2 * L)) k v) v) v).length =
          v.length ∧
      (∀ b, b < B → ∀ k, k < L →
        ((List.range B).foldl
          (fun v b => (List.range L).foldl
            (fun v k => butterflyPair w bigI L (b * (2 * L)) k v) v) v).getD
            (b * (2 * L) + k) 0 =
          bflyAdd (v.getD (b * (2 * L) + k) 0)
            (v.getD (L + b * (2 * L) + k) 0 * w.getD (bigI * k) 0 % bigMod) ∧
        ((List.range B).foldl
          (fun v b => (List.range L).foldl
            (fun v k => butterflyPair w bigI L (b * (2 * L)) k v) v) v).getD
            (L + b * (2 * L) + k) 0 =
          bflySub (v.getD (b * (2 * L) + k) 0)
            (v.getD (L + b * (2 * L) + k) 0 * w.getD (bigI * k) 0 % bigMod)) ∧
      (∀ t, B * (2 * L) ≤ t →
        ((List.range B).foldl
          (fun v b => (List.range L).foldl
            (fun v k => butterflyPair w bigI L (b * (2 * L)) k v) v) v).getD t 0 =
          v.getD t 0) := by
  intro B
  induction B with
  | zero =>
      intro _
      refine ⟨rfl, ?_, ?_⟩
      · intro b hb
        omega
      · intro t ht
        rfl
  | succ B ih =>
      intro hB1
      obtain ⟨hL1, hF, hU⟩ := ih (by omega)
      rw [List.range_succ, List.foldl_append, List.foldl_cons, List.foldl_nil]
      set R := (List.range B).foldl
        (fun v b => (List.range L).foldl
          (fun v k => butterflyPair w bigI L (b * (2 * L)) k v) v) v with hRdef
      have hblen : B * (2 * L) + 2 * L ≤ R.length := by
        rw [hL1, hlen]
        have : B * (2 * L) + 2 * L = (B + 1) * (2 * L) := by ring
        rw [this]
        exact Nat.mul_le_mul_right _ (by omega)
      obtain ⟨iL, iF, iU⟩ := bfly_inner_spec w bigI L (B * (2 * L)) hL R hblen L le_rfl
      refine ⟨by rw [iL, hL1], ?_, ?_⟩
      · intro b hb k hk
        by_cases hbB : b = B
        · subst hbB
          obtain ⟨ia, is'⟩ := iF k hk
          have hva : R.getD (b * (2 * L) + k) 0 = v.getD (b * (2 * L) + k) 0 :=
            hU _ (by omega)
          have hvz : R.getD (L + b * (2 * L) + k) 0 = v.getD (L + b * (2 * L) + k) 0 :=
            hU _ (by omega)
          rw [ia, is', hva, hvz]
          exact ⟨rfl, rfl⟩
        · have hb2 : b < B := by omega
          obtain ⟨fa, fs⟩ := hF b hb2 k hk
          have hp1 : b * (2 * L) + k < B * (2 * L) := by
            have h1 : b * (2 * L) + 2 * L ≤ B * (2 * L) := by
              have : b * (2 * L) + 2 * L = (b + 1) * (2 * L) := by ring
              rw [this]
              exact Nat.mul_le_mul_right _ (by omega)
            omega
          have hp2 : L + b * (2 * L) + k < B * (2 * L) := by
            have h1 : b * (2 * L) + 2 * L ≤ B * (2 * L) := by
              have : b * (2 * L) + 2 * L = (b + 1) * (2 * L) := by ring
              rw [this]
              exact Nat.mul_le_mul_right _ (by omega)
            omega
          constructor
          · rw [iU _ (Or.inl hp1), fa]
          · rw [iU _ (Or.inl hp2), fs]
      · intro t ht
        have h1 : (B + 1) * (2 * L) = B * (2 * L) + 2 * L := by ring
        rw [iU t (Or.inr (Or.inr (by omega)))]
        exact hU t (by omega)

theorem bitrev_even (s u : ℕ) : bitrev (s + 1) (2 * u) = bitrev s u := by
  show (2 * u) % 2 * 2 ^ s + bitrev s (2 * u / 2) = bitrev s u
  rw [Nat.mul_mod_right, Nat.mul_div_cancel_left _ (by norm_num)]
  simp

theorem bitrev_odd (s u : ℕ) : bitrev (s + 1) (2 * u + 1) = 2 ^ s + bitrev s u := by
  show (2 * u + 1) % 2 * 2 ^ s + bitrev s ((2 * u + 1) / 2) = _
  have h1 : (2 * u + 1) % 2 = 1 := by omega
  have h2 : (2 * u + 1) / 2 = u := by omega
  rw [h1, h2, one_mul]

theorem butterflyStages_spec (logN : ℕ) (hlog1 : 1 ≤ logN) (w : List ℕ) (ζ : ZMod bigMod)
    (hw : ∀ k, k < 2 ^ logN → ((w.getD k 0 : ℕ) : ZMod bigMod) = ζ ^ k)
    (hone : ζ ^ 2 ^ logN = 1)
    (hhalf : ζ ^ 2 ^ (logN - 1) = -1)
    (A0 : List ℕ) (hlen : A0.length = 2 ^ logN)
    (hbd : ∀ t, A0.getD t 0 < bigMod) :
    (butterflyStages w (2 ^ logN) logN A0).length = 2 ^ logN ∧
    (∀ t, (butterflyStages w (2 ^ logN) logN A0).getD t 0 < bigMod) ∧
    (∀ t, t < 2 ^ logN →
      ((butterflyStages w (2 ^ logN) logN A0).getD t 0 : ZMod bigMod) =
        ∑ u ∈ Finset.range (2 ^ logN),
          (A0.getD (bitrev logN u) 0 : ZMod bigMod) * ζ ^ (u * t)) := by
  have main : ∀ s, s ≤ logN →
      ((List.range s).foldl
        (fun v s' => butterflyStage w (2 ^ logN) (2 ^ logN >>> (s' + 1)) (2 ^ s') v)
        A0).length = 2 ^ logN ∧
      (∀ t, ((List.range s).foldl
        (fun v s' => butterflyStage w (2 ^ logN) (2 ^ logN >>> (s' + 1)) (2 ^ s') v)
        A0).getD t 0 < bigMod) ∧
      (∀ b, b < 2 ^ (logN - s) → ∀ t, t < 2 ^ s →
        (((List.range s).foldl
          (fun v s' => butterflyStage w (2 ^ logN) (2 ^ logN >>> (s' + 1)) (2 ^ s') v)
          A0).getD (b * 2 ^ s + t) 0 : ZMod bigMod) =
          ∑ u ∈ Finset.range (2 ^ s),
            (A0.getD (b * 2 ^ s + bitrev s u) 0 : ZMod bigMod) *
              ζ ^ (2 ^ (logN - s) * u * t)) := by
    intro s
    induction s with
    | zero =>
        intro _
        refine ⟨hlen, hbd, ?_⟩
        intro b hb t ht
        have ht0 : t = 0 := by omega
        subst ht0
        simp [bitrev]
    | succ s ih =>
        intro hs1
        obtain ⟨ihL, ihB, ihF⟩ := ih (by omega)
        have hss : logN - (s + 1) = logN - s - 1 := by omega
        have hnB : 2 ^ logN / (2 * 2 ^ s) = 2 ^ (logN - s - 1) := by
          rw [← pow_succ', Nat.pow_div (by omega) (by norm_num), hss]
        have hbigI : 2 ^ logN >>> (s + 1) = 2 ^ (logN - s - 1) := by
          rw [Nat.shiftRight_eq_div_pow, Nat.pow_div (by omega) (by norm_num), hss]
        have hpow1 : (2:ℕ) ^ (logN - s) = 2 * 2 ^ (logN - s - 1) := by
          rw [← pow_succ']
          congr 1
          omega
        have hpow2 : (2:ℕ) ^ (logN - s) * 2 ^ s = 2 ^ logN := by
          rw [← pow_add]
          congr 1
          omega
        have hpow3 : (2:ℕ) ^ (logN - s - 1) * 2 ^ s = 2 ^ (logN - 1) := by
          rw [← pow_add]
          congr 1
          omega
        have hfact : (2:ℕ) ^ (logN - s - 1) * (2 * 2 ^ s) = 2 ^ logN := by
          rw [← pow_succ', ← pow_add]
          congr 1
          omega
        have hL2 : (2:ℕ) ^ (s + 1) = 2 * 2 ^ s := by rw [pow_succ']
        have hsub : logN - (s + 1) = logN - s - 1 := by omega
        simp only [List.range_succ, List.foldl_append, List.foldl_cons, List.foldl_nil]
        set R := (List.range s).foldl
          (fun v s' => butterflyStage w (2 ^ logN) (2 ^ logN >>> (s' + 1)) (2 ^ s') v)
          A0 with hRdef
        have hstage : butterflyStage w (2 ^ logN) (2 ^ logN >>> (s + 1)) (2 ^ s) R =
            (List.range (2 ^ (logN - s - 1))).foldl
              (fun v b => (List.range (2 ^ s)).foldl
                (fun v k => butterflyPair w (2 ^ (logN - s - 1)) (2 ^ s)
                  (b * (2 * 2 ^ s)) k v) v) R := by
          unfold butterflyStage
          rw [hnB, hbigI]
        obtain ⟨sL, sF, sU⟩ := bfly_stage_spec w (2 ^ (logN - s - 1)) (2 ^ s)
          (2 ^ (logN - s - 1)) (pow_pos (by norm_num) s) R
          (by rw [ihL, hfact]) (2 ^ (logN - s - 1)) le_rfl
        rw [hstage]
        have hwb : ∀ k, k < 2 ^ s → 2 ^ (logN - s - 1) * k < 2 ^ logN := by
          intro k hk
          calc 2 ^ (logN - s - 1) * k < 2 ^ (logN - s - 1) * 2 ^ s :=
                (Nat.mul_lt_mul_left (pow_pos (by norm_num) _)).mpr hk
            _ = 2 ^ (logN - 1) := hpow3
            _ ≤ 2 ^ logN := Nat.pow_le_pow_right (by norm_num) (by omega)
        have hzb : ∀ p q : ℕ, R.getD p 0 * w.getD q 0 % bigMod < bigMod := by
          intro p q
          exact Nat.mod_lt _ (by norm_num [bigMod])
        refine ⟨by rw [sL, ihL], ?_, ?_⟩
        · intro t
          by_cases htn : t < 2 ^ logN
          · have hdm := Nat.div_add_mod t (2 * 2 ^ s)
            set b := t / (2 * 2 ^ s) with hbdef
            set r := t % (2 * 2 ^ s) with hrdef
            have hrlt : r < 2 * 2 ^ s := Nat.mod_lt _ (by positivity)
            have hblt : b < 2 ^ (logN - s - 1) := by
              rw [hbdef, Nat.div_lt_iff_lt_mul (by positivity)]
              have h1 : 2 ^ (logN - s - 1) * (2 * 2 ^ s) = 2 ^ logN := hfact
              omega
            have hdm2 : b * (2 * 2 ^ s) + r = t := by
              rw [mul_comm] at hdm
              omega
            by_cases hrL : r < 2 ^ s
            · rw [← hdm2]
              rw [(sF b hblt r hrL).1]
              exact bflyAdd_lt _ _ (ihB _) (hzb _ _)
            · have hr2 : r = 2 ^ s + (r - 2 ^ s) := by omega
              have hpos : t = 2 ^ s + b * (2 * 2 ^ s) + (r - 2 ^ s) := by omega
              rw [hpos]
              rw [(sF b hblt (r - 2 ^ s) (by omega)).2]
              exact bflySub_lt _ _ (ihB _) (hzb _ _)
          · rw [sU t (by rw [hfact]; omega)]
            exact ihB t
        · rw [hsub, hL2]
          intro b hb t ht
          have hb2 : 2 * b < 2 ^ (logN - s) := by
            rw [hpow1]
            omega
          have hb2' : 2 * b + 1 < 2 ^ (logN - s) := by
            rw [hpow1]
            omega
          have hpA : 2 * b * 2 ^ s = b * (2 * 2 ^ s) := by ring
          have hpB : (2 * b + 1) * 2 ^ s = 2 ^ s + b * (2 * 2 ^ s) := by ring
          by_cases htL : t < 2 ^ s
          · obtain ⟨hAv, -⟩ := sF b hb t htL
            rw [hAv, cast_bflyAdd _ _ (ihB _) (hzb _ _), cast_mulmod,
              hw _ (hwb t htL)]
            have hc1 := ihF (2 * b) hb2 t htL
            have hc2 := ihF (2 * b + 1) hb2' t htL
            rw [hpA] at hc1
            rw [hpB] at hc2
            rw [hc1, hc2]
            rw [sum_range_even_odd
              (fun u => (A0.getD (b * (2 * 2 ^ s) + bitrev (s + 1) u) 0 : ZMod bigMod) *
                ζ ^ (2 ^ (logN - s - 1) * u * t)) (2 ^ s)]
            have heven : ∀ u ∈ Finset.range (2 ^ s),
                (A0.getD (b * (2 * 2 ^ s) + bitrev (s + 1) (2 * u)) 0 : ZMod bigMod) *
                  ζ ^ (2 ^ (logN - s - 1) * (2 * u) * t) =
                (A0.getD (b * (2 * 2 ^ s) + bitrev s u) 0 : ZMod bigMod) *
                  ζ ^ (2 ^ (logN - s) * u * t) := by
              intro u hu
              rw [bitrev_even]
              congr 2
              rw [hpow1]
              ring
            have hodd : ∀ u ∈ Finset.range (2 ^ s),
                (A0.getD (b * (2 * 2 ^ s) + bitrev (s + 1) (2 * u + 1)) 0 : ZMod bigMod) *
                  ζ ^ (2 ^ (logN - s - 1) * (2 * u + 1) * t) =
                (A0.getD (2 ^ s + b * (2 * 2 ^ s) + bitrev s u) 0 : ZMod bigMod) *
                  ζ ^ (2 ^ (logN - s) * u * t) * ζ ^ (2 ^ (logN - s - 1) * t) := by
              intro u hu
              rw [bitrev_odd]
              rw [show b * (2 * 2 ^ s) + (2 ^ s + bitrev s u) =
                2 ^ s + b * (2 * 2 ^ s) + bitrev s u from by ring]
              rw [show 2 ^ (logN - s - 1) * (2 * u + 1) * t =
                2 ^ (logN - s) * u * t + 2 ^ (logN - s - 1) * t from by rw [hpow1]; ring]
              rw [pow_add]
              ring
            rw [Finset.sum_congr rfl heven, Finset.sum_congr rfl hodd,
              ← Finset.sum_mul]
          · rcases (show ∃ k, k < 2 ^ s ∧ t = 2 ^ s + k from
              ⟨t - 2 ^ s, by omega, by omega⟩) with ⟨k, hk, rfl⟩
            obtain ⟨-, hSv⟩ := sF b hb k hk
            rw [show b * (2 * 2 ^ s) + (2 ^ s + k) = 2 ^ s + b * (2 * 2 ^ s) + k
              from by ring]
            rw [hSv, cast_bflySub _ _ (ihB _) (hzb _ _), cast_mulmod,
              hw _ (hwb k hk)]
            have hc1 := ihF (2 * b) hb2 k hk
            have hc2 := ihF (2 * b + 1) hb2' k hk
            rw [hpA] at hc1
            rw [hpB] at hc2
            rw [hc1, hc2]
            rw [sum_range_even_odd
              (fun u => (A0.getD (b * (2 * 2 ^ s) + bitrev (s + 1) u) 0 : ZMod bigMod) *
                ζ ^ (2 ^ (logN - s - 1) * u * (2 ^ s + k))) (2 ^ s)]
            have heven : ∀ u ∈ Finset.range (2 ^ s),
                (A0.getD (b * (2 * 2 ^ s) + bitrev (s + 1) (2 * u)) 0 : ZMod bigMod) *
                  ζ ^ (2 ^ (logN - s - 1) * (2 * u) * (2 ^ s + k)) =
                (A0.getD (b * (2 * 2 ^ s) + bitrev s u) 0 : ZMod bigMod) *
                  ζ ^ (2 ^ (logN - s) * u * k) := by
              intro u hu
              rw [bitrev_even]
              rw [show 2 ^ (logN - s - 1) * (2 * u) * (2 ^ s + k) =
                2 ^ logN * u + 2 ^ (logN - s) * u * k from by
                  rw [← hpow2, hpow1]; ring]
              rw [pow_add, pow_mul, hone, one_pow, one_mul]
            have hodd : ∀ u ∈ Finset.range (2 ^ s),
                (A0.getD (b * (2 * 2 ^ s) + bitrev (s + 1) (2 * u + 1)) 0 : ZMod bigMod) *
                  ζ ^ (2 ^ (logN - s - 1) * (2 * u + 1) * (2 ^ s + k)) =
                (A0.getD (2 ^ s + b * (2 * 2 ^ s) + bitrev s u) 0 : ZMod bigMod) *
                  ζ ^ (2 ^ (logN - s) * u * k) *
                  (-1 * ζ ^ (2 ^ (logN - s - 1) * k)) := by
              intro u hu
              rw [bitrev_odd]
              rw [show b * (2 * 2 ^ s) + (2 ^ s + bitrev s u) =
                2 ^ s + b * (2 * 2 ^ s) + bitrev s u from by ring]
              rw [show 2 ^ (logN - s - 1) * (2 * u + 1) * (2 ^ s + k) =
                2 ^ logN * u + 2 ^ (logN - s) * u * k +
                  (2 ^ (logN - 1) + 2 ^ (logN - s - 1) * k) from by
                  rw [← hpow2, ← hpow3, hpow1]; ring]
              rw [pow_add, pow_add, pow_mul, hone, one_pow, one_mul, pow_add, hhalf]
              ring
            rw [Finset.sum_congr rfl heven, Finset.sum_congr rfl hodd,
              ← Finset.sum_mul]
            ring
  obtain ⟨hL, hB, hF⟩ := main logN le_rfl
  have hbs : butterflyStages w (2 ^ logN) logN A0 =
      (List.range logN).foldl
        (fun v s' => butterflyStage w (2 ^ logN) (2 ^ logN >>> (s' + 1)) (2 ^ s') v)
        A0 := rfl
  rw [hbs]
  refine ⟨hL, hB, ?_⟩
  intro t ht
  have := hF 0 (by simpa using Nat.one_pos) t ht
  rw [Nat.sub_self] at this
  simp only [zero_mul, zero_add, pow_zero, one_mul] at this
  rw [this]

theorem geom_prod_formula (m : ℕ) : ∀ z : ZMod bigMod,
    ∑ j ∈ Finset.range (2 ^ m), z ^ j =
      ∏ t ∈ Finset.range m, (1 + z ^ 2 ^ t) := by
  induction m with
  | zero =>
      intro z
      simp
  | succ m ih =>
      intro z
      rw [pow_succ', sum_range_even_odd (fun j => z ^ j) (2 ^ m)]
      have he : ∀ j ∈ Finset.range (2 ^ m), z ^ (2 * j) = (z ^ 2) ^ j := by
        intro j hj
        rw [pow_mul]
      have ho : ∀ j ∈ Finset.range (2 ^ m), z ^ (2 * j + 1) = (z ^ 2) ^ j * z := by
        intro j hj
        rw [pow_add, pow_mul, pow_one]
      rw [Finset.sum_congr rfl he, Finset.sum_congr rfl ho, ← Finset.sum_mul, ih (z ^ 2)]
      rw [Finset.prod_range_succ']
      have hcong : ∀ t ∈ Finset.range m, (1 + (z ^ 2) ^ 2 ^ t : ZMod bigMod) =
          1 + z ^ 2 ^ (t + 1) := by
        intro t ht
        rw [← pow_mul]
        congr 2
        rw [pow_succ']
      rw [Finset.prod_congr rfl hcong, pow_zero, pow_one]
      ring

theorem root_orth (logN : ℕ) (hlog1 : 1 ≤ logN) (ζ : ZMod bigMod)
    (hhalf : ζ ^ 2 ^ (logN - 1) = -1) (e : ℕ) (he : e % 2 ^ logN ≠ 0) :
    ∑ j ∈ Finset.range (2 ^ logN), ζ ^ (e * j) = 0 := by
  have he0 : e ≠ 0 := by
    intro h
    subst h
    simp at he
  obtain ⟨a, d, hd, hde⟩ := Nat.exists_eq_two_pow_mul_odd he0
  have ha : a < logN := by
    by_contra hge
    push_neg at hge
    apply he
    have hdvd : (2:ℕ) ^ logN ∣ e := by
      rw [hde]
      exact Dvd.dvd.mul_right (pow_dvd_pow 2 hge) d
    exact Nat.mod_eq_zero_of_dvd hdvd
  have hterm : ∀ j ∈ Finset.range (2 ^ logN), ζ ^ (e * j) = (ζ ^ e) ^ j := by
    intro j hj
    rw [pow_mul]
  rw [Finset.sum_congr rfl hterm, geom_prod_formula]
  apply Finset.prod_eq_zero (Finset.mem_range.mpr (show logN - 1 - a < logN by omega))
  rw [← pow_mul]
  have hexp : e * 2 ^ (logN - 1 - a) = 2 ^ (logN - 1) * d := by
    rw [hde, mul_comm (2 ^ a) d, mul_assoc, ← pow_add]
    rw [show a + (logN - 1 - a) = logN - 1 from by omega]
    ring
  rw [hexp, mul_comm (2 ^ (logN - 1)) d, pow_mul', hhalf, hd.neg_one_pow]
  ring

theorem bigMod_cast_sub_one : ((bigMod - 1 : ℕ) : ZMod bigMod) = -1 := by
  have h1 : (1:ℕ) ≤ bigMod := by norm_num [bigMod]
  rw [Nat.cast_sub h1, ZMod.natCast_self, Nat.cast_one]
  ring

theorem shift_lt_64 (logN : ℕ) : bigMod >>> logN < 2 ^ 64 := by
  rw [Nat.shiftRight_eq_div_pow]
  have h := Nat.div_le_self bigMod (2 ^ logN)
  have h2 : bigMod < 2 ^ 64 := by norm_num [bigMod]
  omega

theorem G_lt (logN : ℕ) : modpow bigRoot (bigMod >>> logN) < bigMod := by
  rw [modpow_spec _ _ (by norm_num [bigRoot, bigMod]) (shift_lt_64 logN)]
  exact Nat.mod_lt _ (by norm_num [bigMod])

theorem G_half (logN : ℕ) (h1 : 1 ≤ logN) (h2 : logN ≤ 30) :
    ((modpow bigRoot (bigMod >>> logN) : ℕ) : ZMod bigMod) ^ 2 ^ (logN - 1) = -1 := by
  rw [modpow_spec _ _ (by norm_num [bigRoot, bigMod]) (shift_lt_64 logN),
    bigMod_shift logN h1 h2, ZMod.natCast_mod, Nat.cast_pow, ← pow_mul]
  have hexp : 3 * 2 ^ (30 - logN) * 2 ^ (logN - 1) = (bigMod - 1) / 2 := by
    rw [mul_assoc, ← pow_add, show 30 - logN + (logN - 1) = 29 from by omega]
    norm_num [bigMod]
  rw [hexp]
  have hroot5 : (bigRoot : ℕ) = 5 := rfl
  rw [hroot5]
  have h5 : ((5:ℕ) : ZMod bigMod) ^ ((bigMod - 1) / 2) =
      ((modpow 5 ((bigMod - 1) / 2) : ℕ) : ZMod bigMod) := by
    rw [modpow_spec 5 _ (by norm_num [bigMod]) (by norm_num [bigMod]), ZMod.natCast_mod,
      Nat.cast_pow]
  rw [show ((5:ℕ) : ZMod bigMod) = ((5:ℕ) : ZMod bigMod) from rfl] at h5
  rw [h5, five_half_pow, bigMod_cast_sub_one]

theorem G_one (logN : ℕ) (h1 : 1 ≤ logN) (h2 : logN ≤ 30) :
    ((modpow bigRoot (bigMod >>> logN) : ℕ) : ZMod bigMod) ^ 2 ^ logN = 1 := by
  rw [show (2:ℕ) ^ logN = 2 ^ (logN - 1) * 2 from by
      rw [← pow_succ]
      congr 1
      omega]
  rw [pow_mul, G_half logN h1 h2, neg_one_sq]

theorem lt_of_getD (l : List ℕ) (h : ∀ t, l.getD t 0 < bigMod) : ∀ x ∈ l, x < bigMod := by
  intro x hx
  obtain ⟨i, hi, hix⟩ := List.mem_iff_getElem.mp hx
  have := h i
  rw [List.getD_eq_getElem?_getD, List.getElem?_eq_getElem hi] at this
  subst hix
  simpa using this

theorem nat_eq_of_cast_eq (a b : ℕ) (ha : a < bigMod) (hb : b < bigMod)
    (h : (a : ZMod bigMod) = (b : ZMod bigMod)) : a = b := by
  haveI : NeZero bigMod := ⟨by norm_num [bigMod]⟩
  have h2 := congrArg ZMod.val h
  rwa [ZMod.val_natCast_of_lt ha, ZMod.val_natCast_of_lt hb] at h2

theorem NTT_false_eq (logN : ℕ) (v : List ℕ) :
    NTT logN false v =
      butterflyStages ((List.range v.length).map (rootPow (modpow bigRoot (bigMod >>> logN))))
        (2 ^ logN) logN (bitrevSweep v.length v) := rfl

theorem NTT_true_eq (logN : ℕ) (v : List ℕ) :
    NTT logN true v =
      butterflyStages
        (match (List.range v.length).map (rootPow (modpow bigRoot (bigMod >>> logN))) with
          | [] => []
          | h :: t => h :: t.reverse)
        (2 ^ logN) logN
        (bitrevSweep v.length
          (v.map (fun x => x * modinvU (v.length : ℤ) (bigMod : ℤ) % bigMod))) := rfl

theorem NTT_forward_spec (logN : ℕ) (h1 : 1 ≤ logN) (h2 : logN ≤ 30) (v : List ℕ)
    (hlen : v.length = 2 ^ logN) (hbd : ∀ x ∈ v, x < bigMod) :
    (NTT logN false v).length = 2 ^ logN ∧
    (∀ x ∈ NTT logN false v, x < bigMod) ∧
    (∀ t, t < 2 ^ logN →
      ((NTT logN false v).getD t 0 : ZMod bigMod) =
        ∑ u ∈ Finset.range (2 ^ logN),
          (v.getD u 0 : ZMod bigMod) *
            ((modpow bigRoot (bigMod >>> logN) : ℕ) : ZMod bigMod) ^ (u * t)) := by
  rw [NTT_false_eq, hlen]
  have hglt : modpow bigRoot (bigMod >>> logN) < bigMod := G_lt logN
  obtain ⟨bsL, bsP⟩ := bitrevSweep_spec logN (by omega) v hlen
  have hA0bd : ∀ t, (bitrevSweep (2 ^ logN) v).getD t 0 < bigMod := by
    intro t
    rw [bsP t]
    split <;> exact entries_lt v hbd _
  have hw : ∀ k, k < 2 ^ logN →
      ((((List.range (2 ^ logN)).map
          (rootPow (modpow bigRoot (bigMod >>> logN)))).getD k 0 : ℕ) : ZMod bigMod) =
        ((modpow bigRoot (bigMod >>> logN) : ℕ) : ZMod bigMod) ^ k := by
    intro k hk
    rw [getD_map _ _ _ (by rw [List.length_range]; exact hk), getD_range _ _ hk,
      rootPow_spec _ hglt, ZMod.natCast_mod, Nat.cast_pow]
  obtain ⟨stL, stB, stF⟩ := butterflyStages_spec logN h1
    ((List.range (2 ^ logN)).map (rootPow (modpow bigRoot (bigMod >>> logN))))
    ((modpow bigRoot (bigMod >>> logN) : ℕ) : ZMod bigMod) hw
    (G_one logN h1 h2) (G_half logN h1 h2)
    (bitrevSweep (2 ^ logN) v) bsL hA0bd
  refine ⟨stL, lt_of_getD _ stB, ?_⟩
  intro t ht
  rw [stF t ht]
  refine Finset.sum_congr rfl ?_
  intro u hu
  have hu2 : u < 2 ^ logN := Finset.mem_range.mp hu
  rw [bsP (bitrev logN u), if_pos (bitrev_lt logN u), bitrev_bitrev logN u hu2]

theorem sub_one_mul_mod (n k : ℕ) (h1 : 1 ≤ k) (h2 : k < n) : (n - 1) * k % n = n - k := by
  have a1 : (n - 1) * k = n * k - k := Nat.sub_one_mul n k
  have a2 : n * (k - 1) + n = n * k := by
    have hk : k - 1 + 1 = k := by omega
    calc n * (k - 1) + n = n * (k - 1 + 1) := by ring
      _ = n * k := by rw [hk]
  have e1 : (n - 1) * k = n * (k - 1) + (n - k) := by omega
  rw [e1, Nat.mul_add_mod, Nat.mod_eq_of_lt (by omega)]

theorem two_pow_split (logN : ℕ) (h1 : 1 ≤ logN) :
    (2:ℕ) ^ logN = 2 * 2 ^ (logN - 1) := by
  rw [← pow_succ']
  congr 1
  omega

theorem Ginv_half (logN : ℕ) (h1 : 1 ≤ logN) (h2 : logN ≤ 30) :
    (((modpow bigRoot (bigMod >>> logN) : ℕ) : ZMod bigMod) ^ (2 ^ logN - 1)) ^
      2 ^ (logN - 1) = -1 := by
  rw [← pow_mul, zpow_cycle _ _ (G_one logN h1 h2),
    sub_one_mul_mod _ _ (Nat.one_le_two_pow) (by
      have := two_pow_split logN h1
      have hp : 0 < (2:ℕ) ^ (logN - 1) := pow_pos (by norm_num) _
      omega),
    show (2:ℕ) ^ logN - 2 ^ (logN - 1) = 2 ^ (logN - 1) from by
      have := two_pow_split logN h1
      omega,
    G_half logN h1 h2]

theorem Ginv_one (logN : ℕ) (h1 : 1 ≤ logN) (h2 : logN ≤ 30) :
    (((modpow bigRoot (bigMod >>> logN) : ℕ) : ZMod bigMod) ^ (2 ^ logN - 1)) ^
      2 ^ logN = 1 := by
  rw [← pow_mul, mul_comm, pow_mul, G_one logN h1 h2, one_pow]

theorem wInv_table (logN : ℕ) (h1 : 1 ≤ logN) (h2 : logN ≤ 30) :
    ∀ k, k < 2 ^ logN →
      (((match (List.range (2 ^ logN)).map
            (rootPow (modpow bigRoot (bigMod >>> logN))) with
          | [] => []
          | h :: t => h :: t.reverse) : List ℕ).getD k 0 : ZMod bigMod) =
        (((modpow bigRoot (bigMod >>> logN) : ℕ) : ZMod bigMod) ^ (2 ^ logN - 1)) ^ k := by
  intro k hk
  have hglt : modpow bigRoot (bigMod >>> logN) < bigMod := G_lt logN
  have hn1 : (2:ℕ) ^ logN = (2 ^ logN - 1) + 1 := by
    have := Nat.one_le_two_pow (n := logN)
    omega
  have hsplit : (List.range (2 ^ logN)).map (rootPow (modpow bigRoot (bigMod >>> logN))) =
      rootPow (modpow bigRoot (bigMod >>> logN)) 0 ::
        ((List.range (2 ^ logN - 1)).map
          (rootPow (modpow bigRoot (bigMod >>> logN)) ∘ Nat.succ)) := by
    conv_lhs => rw [hn1]
    rw [List.range_succ_eq_map, List.map_cons, List.map_map]
  rw [hsplit]
  have hmatch : (match (rootPow (modpow bigRoot (bigMod >>> logN)) 0 ::
        ((List.range (2 ^ logN - 1)).map
          (rootPow (modpow bigRoot (bigMod >>> logN)) ∘ Nat.succ)) : List ℕ) with
      | [] => []
      | h :: t => h :: t.reverse) =
      rootPow (modpow bigRoot (bigMod >>> logN)) 0 ::
        ((List.range (2 ^ logN - 1)).map
          (rootPow (modpow bigRoot (bigMod >>> logN)) ∘ Nat.succ)).reverse := rfl
  rw [hmatch]
  rcases k with _ | k'
  · rw [List.getD_cons_zero]
    show ((1:ℕ) : ZMod bigMod) = _
    rw [Nat.cast_one, pow_zero]
  · rw [List.getD_cons_succ]
    have hTlen : ((List.range (2 ^ logN - 1)).map
        (rootPow (modpow bigRoot (bigMod >>> logN)) ∘ Nat.succ)).length = 2 ^ logN - 1 := by
      rw [List.length_map, List.length_range]
    have hk' : k' < 2 ^ logN - 1 := by omega
    rw [getD_reverse _ _ (by rw [hTlen]; omega), hTlen]
    rw [getD_map _ _ _ (by rw [List.length_range]; omega),
      getD_range _ _ (by omega)]
    show ((rootPow (modpow bigRoot (bigMod >>> logN))
      (Nat.succ (2 ^ logN - 1 - 1 - k')) : ℕ) : ZMod bigMod) = _
    rw [show Nat.succ (2 ^ logN - 1 - 1 - k') = 2 ^ logN - (k' + 1) from by omega]
    rw [rootPow_spec _ hglt, ZMod.natCast_mod, Nat.cast_pow]
    rw [← pow_mul, zpow_cycle _ _ (G_one logN h1 h2) ((2 ^ logN - 1) * (k' + 1)),
      sub_one_mul_mod _ _ (by omega) hk]

theorem key_mod_ne (n m t : ℕ) (hm : m < n) (ht : t < n) (hne : m ≠ t) :
    (m + (n - 1) * t) % n ≠ 0 := by
  have a1 : (n - 1) * t = n * t - t := Nat.sub_one_mul n t
  rcases Nat.lt_or_ge t m with hlt | hge
  · have hle : t ≤ n * t := Nat.le_mul_of_pos_left t (by omega)
    have e1 : m + (n - 1) * t = (m - t) + t * n := by
      have : t * n = n * t := mul_comm t n
      omega
    rw [e1, Nat.add_mul_mod_self_right, Nat.mod_eq_of_lt (by omega)]
    omega
  · have hmt : m < t := by omega
    have a2 : n * (t - 1) + n = n * t := by
      have hk : t - 1 + 1 = t := by omega
      calc n * (t - 1) + n = n * (t - 1 + 1) := by ring
        _ = n * t := by rw [hk]
    have e1 : m + (n - 1) * t = n * (t - 1) + (n - (t - m)) := by omega
    rw [e1, Nat.mul_add_mod, Nat.mod_eq_of_lt (by omega)]
    omega

theorem key_mod_eq (n t : ℕ) (h : t < n) : t + (n - 1) * t = n * t := by
  have a1 : (n - 1) * t = n * t - t := Nat.sub_one_mul n t
  have hle : t ≤ n * t := Nat.le_mul_of_pos_left t (by omega)
  omega

theorem getD_eq_get (l : List ℕ) (i : ℕ) (h : i < l.length) : l.getD i 0 = l[i] := by
  rw [List.getD_eq_getElem?_getD, List.getElem?_eq_getElem h]
  rfl

/-- C10: for every `logN` with `1 ≤ logN ≤ 30` and every limb vector of
length exactly `2 ^ logN` whose entries are below `MOD = 3 * 2^30 + 1`,
the forward transform `NTT_(logN, false)` followed by the inverse transform
`NTT_(logN, true)` restores the original vector exactly. -/
theorem C10_NTT_round_trip (logN : ℕ) (v : List ℕ) (h1 : 1 ≤ logN) (h2 : logN ≤ 30)
    (hlen : v.length = 2 ^ logN) (hbd : ∀ x ∈ v, x < bigMod) :
    NTT logN true (NTT logN false v) = v := by
  obtain ⟨fL, fB, fF⟩ := NTT_forward_spec logN h1 h2 v hlen hbd
  rw [NTT_true_eq, fL]
  have hy1len : ((NTT logN false v).map
      (fun x => x * modinvU ((2 ^ logN : ℕ) : ℤ) (bigMod : ℤ) % bigMod)).length =
      2 ^ logN := by
    rw [List.length_map, fL]
  have hy1bd : ∀ x ∈ (NTT logN false v).map
      (fun x => x * modinvU ((2 ^ logN : ℕ) : ℤ) (bigMod : ℤ) % bigMod), x < bigMod := by
    intro x hx
    obtain ⟨a, ha, rfl⟩ := List.mem_map.mp hx
    exact Nat.mod_lt _ (by norm_num [bigMod])
  have hy1get : ∀ j, j < 2 ^ logN →
      ((NTT logN false v).map
        (fun x => x * modinvU ((2 ^ logN : ℕ) : ℤ) (bigMod : ℤ) % bigMod)).getD j 0 =
      (NTT logN false v).getD j 0 * modinvU ((2 ^ logN : ℕ) : ℤ) (bigMod : ℤ) % bigMod := by
    intro j hj
    rw [getD_map _ _ _ (by rw [fL]; exact hj)]
  obtain ⟨bsL, bsP⟩ := bitrevSweep_spec logN (by omega)
    ((NTT logN false v).map
      (fun x => x * modinvU ((2 ^ logN : ℕ) : ℤ) (bigMod : ℤ) % bigMod)) hy1len
  have hA0bd : ∀ t, (bitrevSweep (2 ^ logN)
      ((NTT logN false v).map
        (fun x => x * modinvU ((2 ^ logN : ℕ) : ℤ) (bigMod : ℤ) % bigMod))).getD t 0 <
      bigMod := by
    intro t
    rw [bsP t]
    split <;> exact entries_lt _ hy1bd _
  obtain ⟨stL, stB, stF⟩ := butterflyStages_spec logN h1
    (match (List.range (2 ^ logN)).map (rootPow (modpow bigRoot (bigMod >>> logN))) with
      | [] => []
      | h :: t => h :: t.reverse)
    (((modpow bigRoot (bigMod >>> logN) : ℕ) : ZMod bigMod) ^ (2 ^ logN - 1))
    (wInv_table logN h1 h2) (Ginv_one logN h1 h2) (Ginv_half logN h1 h2)
    (bitrevSweep (2 ^ logN)
      ((NTT logN false v).map
        (fun x => x * modinvU ((2 ^ logN : ℕ) : ℤ) (bigMod : ℤ) % bigMod))) bsL hA0bd
  have hImul : ((modinvU ((2 ^ logN : ℕ) : ℤ) (bigMod : ℤ) : ℕ) : ZMod bigMod) *
      ((2 ^ logN : ℕ) : ZMod bigMod) = 1 := by
    have hstep := modinv_pow2 (logN - 1) (by omega)
    rw [show logN - 1 + 1 = logN from by omega] at hstep
    have hcast2 : ((2 ^ logN : ℕ) : ℤ) = (2 : ℤ) ^ logN := by push_cast; ring
    have hc := congrArg (fun x : ℕ => (x : ZMod bigMod)) hstep
    simp only at hc
    rw [ZMod.natCast_mod, Nat.cast_mul, Nat.cast_one, Nat.cast_pow] at hc
    rw [hcast2, Nat.cast_pow]
    exact hc
  apply List.ext_getElem (by rw [stL, hlen])
  intro i hi1 hi2
  have hiN : i < 2 ^ logN := by rw [stL] at hi1; exact hi1
  rw [← getD_eq_get _ _ hi1, ← getD_eq_get _ _ hi2]
  apply nat_eq_of_cast_eq _ _ (stB i) (entries_lt v hbd i)
  rw [stF i hiN]
  have hstep1 : ∀ u ∈ Finset.range (2 ^ logN),
      ((bitrevSweep (2 ^ logN)
        ((NTT logN false v).map
          (fun x => x * modinvU ((2 ^ logN : ℕ) : ℤ) (bigMod : ℤ) % bigMod))).getD
          (bitrev logN u) 0 : ZMod bigMod) *
        ((((modpow bigRoot (bigMod >>> logN) : ℕ) : ZMod bigMod) ^ (2 ^ logN - 1)) ^ (u * i)) =
      ∑ m ∈ Finset.range (2 ^ logN),
        (v.getD m 0 : ZMod bigMod) *
          ((modinvU ((2 ^ logN : ℕ) : ℤ) (bigMod : ℤ) : ℕ) : ZMod bigMod) *
          ((modpow bigRoot (bigMod >>> logN) : ℕ) : ZMod bigMod) ^
            ((m + (2 ^ logN - 1) * i) * u) := by
    intro u hu
    have hu2 := Finset.mem_range.mp hu
    rw [bsP (bitrev logN u), if_pos (bitrev_lt logN u), bitrev_bitrev logN u hu2,
      hy1get u hu2, cast_mulmod, fF u hu2, Finset.sum_mul, Finset.sum_mul]
    refine Finset.sum_congr rfl ?_
    intro m hm
    rw [show (m + (2 ^ logN - 1) * i) * u = m * u + (2 ^ logN - 1) * (u * i) from by ring,
      pow_add, ← pow_mul]
    ring
  rw [Finset.sum_congr rfl hstep1, Finset.sum_comm]
  have hstep2 : ∀ m ∈ Finset.range (2 ^ logN),
      (∑ u ∈ Finset.range (2 ^ logN),
        (v.getD m 0 : ZMod bigMod) *
          ((modinvU ((2 ^ logN : ℕ) : ℤ) (bigMod : ℤ) : ℕ) : ZMod bigMod) *
          ((modpow bigRoot (bigMod >>> logN) : ℕ) : ZMod bigMod) ^
            ((m + (2 ^ logN - 1) * i) * u)) =
      (v.getD m 0 : ZMod bigMod) *
        ((modinvU ((2 ^ logN : ℕ) : ℤ) (bigMod : ℤ) : ℕ) : ZMod bigMod) *
        (∑ u ∈ Finset.range (2 ^ logN),
          ((modpow bigRoot (bigMod >>> logN) : ℕ) : ZMod bigMod) ^
            ((m + (2 ^ logN - 1) * i) * u)) := by
    intro m hm
    rw [Finset.mul_sum]
  rw [Finset.sum_congr rfl hstep2]
  rw [Finset.sum_eq_single_of_mem i (Finset.mem_range.mpr hiN)]
  · have hinner : ∀ u ∈ Finset.range (2 ^ logN),
        ((modpow bigRoot (bigMod >>> logN) : ℕ) : ZMod bigMod) ^
          ((i + (2 ^ logN - 1) * i) * u) = 1 := by
      intro u hu
      rw [key_mod_eq (2 ^ logN) i hiN, mul_assoc, pow_mul, G_one logN h1 h2, one_pow]
    rw [Finset.sum_congr rfl hinner, Finset.sum_const, Finset.card_range,
      nsmul_eq_mul, mul_one, mul_assoc, hImul, mul_one]
  · intro m hm hmne
    rw [root_orth logN h1 _ (G_half logN h1 h2) (m + (2 ^ logN - 1) * i)
      (key_mod_ne (2 ^ logN) m i (Finset.mem_range.mp hm) hiN hmne), mul_zero]

/-- Witness for C10 at `logN = 1` and the vector `[1, 2]`. -/
theorem C10_NTT_round_trip_witness :
    (1 ≤ 1 ∧ 1 ≤ 30 ∧ ([1, 2] : List ℕ).length = 2 ^ 1 ∧
      ∀ x ∈ ([1, 2] : List ℕ), x < bigMod) ∧
    NTT 1 true (NTT 1 false [1, 2]) = [1, 2] :=
  ⟨⟨le_rfl, by norm_num, by decide, by decide⟩,
    C10_NTT_round_trip 1 [1, 2] le_rfl (by norm_num) (by decide) (by decide)⟩
